import Mathlib

set_option maxHeartbeats 1000000

namespace Owl2

/-- An IRI, wrapping a string (src/lib.rs `IRI`). -/
structure IRI where
  val : String
deriving DecidableEq

/-- A node identifier for anonymous individuals (src/lib.rs `NodeID`). -/
structure NodeID where
  val : String
deriving DecidableEq

/-- A class, identified by an IRI (src/lib.rs `Class`). -/
structure Class where
  iri : IRI
deriving DecidableEq

/-- A datatype, identified by an IRI (src/lib.rs `Datatype`). -/
structure Datatype where
  iri : IRI
deriving DecidableEq

/-- An object property (src/lib.rs `ObjectProperty`). -/
structure ObjectProperty where
  iri : IRI
deriving DecidableEq

/-- A data property (src/lib.rs `DataProperty`). -/
structure DataProperty where
  iri : IRI
deriving DecidableEq

/-- An individual: named by IRI or anonymous by NodeID (src/lib.rs `Individual`). -/
inductive Individual where
  | named : IRI → Individual
  | anonymous : NodeID → Individual
deriving DecidableEq

/-- A literal value (src/lib.rs `Literal`). -/
structure Literal where
  value : String
  datatype : Datatype
  lang : Option String
deriving DecidableEq

/-- An object property expression (src/lib.rs `ObjectPropertyExpression`). -/
inductive ObjectPropertyExpression where
  | objectProperty : ObjectProperty → ObjectPropertyExpression
  | inverseObjectProperty : ObjectProperty → ObjectPropertyExpression
  | objectPropertyChain : List ObjectPropertyExpression → ObjectPropertyExpression

mutual

/-- Structural equality on object property expressions (Rust `derive(PartialEq)`). -/
def opeBEq : ObjectPropertyExpression → ObjectPropertyExpression → Bool
  | .objectProperty p, .objectProperty q => decide (p = q)
  | .inverseObjectProperty p, .inverseObjectProperty q => decide (p = q)
  | .objectPropertyChain l1, .objectPropertyChain l2 => opeListBEq l1 l2
  | _, _ => false

/-- Structural equality on lists of object property expressions. -/
def opeListBEq : List ObjectPropertyExpression → List ObjectPropertyExpression → Bool
  | [], [] => true
  | a :: as, b :: bs => opeBEq a b && opeListBEq as bs
  | _, _ => false

end

mutual

def opeBEq_sound : (a b : ObjectPropertyExpression) → opeBEq a b = true → a = b
  | .objectProperty p, b => by
      cases b <;> simp [opeBEq]
  | .inverseObjectProperty p, b => by
      cases b <;> simp [opeBEq]
  | .objectPropertyChain l1, b => by
      cases b <;> simp [opeBEq]
      exact opeListBEq_sound l1 _

def opeListBEq_sound : (l1 l2 : List ObjectPropertyExpression) →
    opeListBEq l1 l2 = true → l1 = l2
  | [], [] => by simp
  | [], _ :: _ => by simp [opeListBEq]
  | _ :: _, [] => by simp [opeListBEq]
  | a :: as, b :: bs => by
      simp only [opeListBEq, Bool.and_eq_true]
      intro h
      rw [opeBEq_sound a b h.1, opeListBEq_sound as bs h.2]

end

mutual

def opeBEq_refl : (a : ObjectPropertyExpression) → opeBEq a a = true
  | .objectProperty p => by simp [opeBEq]
  | .inverseObjectProperty p => by simp [opeBEq]
  | .objectPropertyChain l => by simpa [opeBEq] using opeListBEq_refl l

def opeListBEq_refl : (l : List ObjectPropertyExpression) → opeListBEq l l = true
  | [] => rfl
  | a :: as => by
      simp only [opeListBEq, Bool.and_eq_true]
      exact ⟨opeBEq_refl a, opeListBEq_refl as⟩

end

instance : DecidableEq ObjectPropertyExpression := fun a b =>
  if h : opeBEq a b = true then isTrue (opeBEq_sound a b h)
  else isFalse (fun he => h (he ▸ opeBEq_refl a))

/-- A class expression (src/lib.rs `ClassExpression`); `u32` cardinalities become `Nat`. -/
inductive ClassExpression where
  | class_ : Class → ClassExpression
  | objectIntersectionOf : List ClassExpression → ClassExpression
  | objectUnionOf : List ClassExpression → ClassExpression
  | objectComplementOf : ClassExpression → ClassExpression
  | objectOneOf : List Individual → ClassExpression
  | objectSomeValuesFrom : ObjectPropertyExpression → ClassExpression → ClassExpression
  | objectAllValuesFrom : ObjectPropertyExpression → ClassExpression → ClassExpression
  | objectHasValue : ObjectPropertyExpression → Individual → ClassExpression
  | objectHasSelf : ObjectPropertyExpression → ClassExpression
  | objectMinCardinality : Nat → ObjectPropertyExpression → Option ClassExpression → ClassExpression
  | objectMaxCardinality : Nat → ObjectPropertyExpression → Option ClassExpression → ClassExpression
  | objectExactCardinality : Nat → ObjectPropertyExpression → Option ClassExpression → ClassExpression

mutual

/-- Structural equality on class expressions (Rust `derive(PartialEq)`). -/
def ceBEq : ClassExpression → ClassExpression → Bool
  | .class_ c, .class_ d => decide (c = d)
  | .objectIntersectionOf l1, .objectIntersectionOf l2 => ceListBEq l1 l2
  | .objectUnionOf l1, .objectUnionOf l2 => ceListBEq l1 l2
  | .objectComplementOf e1, .objectComplementOf e2 => ceBEq e1 e2
  | .objectOneOf l1, .objectOneOf l2 => decide (l1 = l2)
  | .objectSomeValuesFrom p1 f1, .objectSomeValuesFrom p2 f2 => decide (p1 = p2) && ceBEq f1 f2
  | .objectAllValuesFrom p1 f1, .objectAllValuesFrom p2 f2 => decide (p1 = p2) && ceBEq f1 f2
  | .objectHasValue p1 v1, .objectHasValue p2 v2 => decide (p1 = p2) && decide (v1 = v2)
  | .objectHasSelf p1, .objectHasSelf p2 => decide (p1 = p2)
  | .objectMinCardinality n1 p1 f1, .objectMinCardinality n2 p2 f2 =>
      decide (n1 = n2) && decide (p1 = p2) && ceOptBEq f1 f2
  | .objectMaxCardinality n1 p1 f1, .objectMaxCardinality n2 p2 f2 =>
      decide (n1 = n2) && decide (p1 = p2) && ceOptBEq f1 f2
  | .objectExactCardinality n1 p1 f1, .objectExactCardinality n2 p2 f2 =>
      decide (n1 = n2) && decide (p1 = p2) && ceOptBEq f1 f2
  | _, _ => false

/-- Structural equality on lists of class expressions. -/
def ceListBEq : List ClassExpression → List ClassExpression → Bool
  | [], [] => true
  | a :: as, b :: bs => ceBEq a b && ceListBEq as bs
  | _, _ => false

/-- Structural equality on optional class expressions. -/
def ceOptBEq : Option ClassExpression → Option ClassExpression → Bool
  | none, none => true
  | some a, some b => ceBEq a b
  | _, _ => false

end

mutual

def ceBEq_sound : (a b : ClassExpression) → ceBEq a b = true → a = b
  | .class_ c, b => by cases b <;> simp [ceBEq]
  | .objectIntersectionOf l1, b => by
      cases b <;> simp [ceBEq]
      exact ceListBEq_sound l1 _
  | .objectUnionOf l1, b => by
      cases b <;> simp [ceBEq]
      exact ceListBEq_sound l1 _
  | .objectComplementOf e1, b => by
      cases b <;> simp [ceBEq]
      exact ceBEq_sound e1 _
  | .objectOneOf l1, b => by cases b <;> simp [ceBEq]
  | .objectSomeValuesFrom p1 f1, b => by
      cases b <;> simp [ceBEq]
      exact fun hp hf => ⟨hp, ceBEq_sound f1 _ hf⟩
  | .objectAllValuesFrom p1 f1, b => by
      cases b <;> simp [ceBEq]
      exact fun hp hf => ⟨hp, ceBEq_sound f1 _ hf⟩
  | .objectHasValue p1 v1, b => by cases b <;> simp [ceBEq]
  | .objectHasSelf p1, b => by cases b <;> simp [ceBEq]
  | .objectMinCardinality n1 p1 f1, b => by
      cases b <;> simp [ceBEq]
      exact fun hn hp hf => ⟨hn, hp, ceOptBEq_sound f1 _ hf⟩
  | .objectMaxCardinality n1 p1 f1, b => by
      cases b <;> simp [ceBEq]
      exact fun hn hp hf => ⟨hn, hp, ceOptBEq_sound f1 _ hf⟩
  | .objectExactCardinality n1 p1 f1, b => by
      cases b <;> simp [ceBEq]
      exact fun hn hp hf => ⟨hn, hp, ceOptBEq_sound f1 _ hf⟩

def ceListBEq_sound : (l1 l2 : List ClassExpression) → ceListBEq l1 l2 = true → l1 = l2
  | [], [] => by simp
  | [], _ :: _ => by simp [ceListBEq]
  | _ :: _, [] => by simp [ceListBEq]
  | a :: as, b :: bs => by
      simp only [ceListBEq, Bool.and_eq_true]
      intro h
      rw [ceBEq_sound a b h.1, ceListBEq_sound as bs h.2]

def ceOptBEq_sound : (o1 o2 : Option ClassExpression) → ceOptBEq o1 o2 = true → o1 = o2
  | none, none => by simp
  | none, some _ => by simp [ceOptBEq]
  | some _, none => by simp [ceOptBEq]
  | some a, some b => by
      simp only [ceOptBEq, Option.some.injEq]
      exact ceBEq_sound a b

end

mutual

def ceBEq_refl : (a : ClassExpression) → ceBEq a a = true
  | .class_ c => by simp [ceBEq]
  | .objectIntersectionOf l => by simpa [ceBEq] using ceListBEq_refl l
  | .objectUnionOf l => by simpa [ceBEq] using ceListBEq_refl l
  | .objectComplementOf e => by simpa [ceBEq] using ceBEq_refl e
  | .objectOneOf l => by simp [ceBEq]
  | .objectSomeValuesFrom p f => by simpa [ceBEq] using ceBEq_refl f
  | .objectAllValuesFrom p f => by simpa [ceBEq] using ceBEq_refl f
  | .objectHasValue p v => by simp [ceBEq]
  | .objectHasSelf p => by simp [ceBEq]
  | .objectMinCardinality n p f => by simpa [ceBEq] using ceOptBEq_refl f
  | .objectMaxCardinality n p f => by simpa [ceBEq] using ceOptBEq_refl f
  | .objectExactCardinality n p f => by simpa [ceBEq] using ceOptBEq_refl f

def ceListBEq_refl : (l : List ClassExpression) → ceListBEq l l = true
  | [] => rfl
  | a :: as => by
      simp only [ceListBEq, Bool.and_eq_true]
      exact ⟨ceBEq_refl a, ceListBEq_refl as⟩

def ceOptBEq_refl : (o : Option ClassExpression) → ceOptBEq o o = true
  | none => rfl
  | some a => ceBEq_refl a

end

instance : DecidableEq ClassExpression := fun a b =>
  if h : ceBEq a b = true then isTrue (ceBEq_sound a b h)
  else isFalse (fun he => h (he ▸ ceBEq_refl a))

/-- A data range (src/lib.rs `DataRange`). -/
inductive DataRange where
  | datatype : Datatype → DataRange
  | dataIntersectionOf : List DataRange → DataRange
  | dataUnionOf : List DataRange → DataRange
  | dataComplementOf : DataRange → DataRange
  | dataOneOf : List Literal → DataRange
  | datatypeRestriction : Datatype → List (IRI × Literal) → DataRange

mutual

/-- Structural equality on data ranges (Rust `derive(PartialEq)`). -/
def drBEq : DataRange → DataRange → Bool
  | .datatype d1, .datatype d2 => decide (d1 = d2)
  | .dataIntersectionOf l1, .dataIntersectionOf l2 => drListBEq l1 l2
  | .dataUnionOf l1, .dataUnionOf l2 => drListBEq l1 l2
  | .dataComplementOf r1, .dataComplementOf r2 => drBEq r1 r2
  | .dataOneOf l1, .dataOneOf l2 => decide (l1 = l2)
  | .datatypeRestriction d1 r1, .datatypeRestriction d2 r2 => decide (d1 = d2) && decide (r1 = r2)
  | _, _ => false

/-- Structural equality on lists of data ranges. -/
def drListBEq : List DataRange → List DataRange → Bool
  | [], [] => true
  | a :: as, b :: bs => drBEq a b && drListBEq as bs
  | _, _ => false

end

mutual

def drBEq_sound : (a b : DataRange) → drBEq a b = true → a = b
  | .datatype d1, b => by cases b <;> simp [drBEq]
  | .dataIntersectionOf l1, b => by
      cases b <;> simp [drBEq]
      exact drListBEq_sound l1 _
  | .dataUnionOf l1, b => by
      cases b <;> simp [drBEq]
      exact drListBEq_sound l1 _
  | .dataComplementOf r1, b => by
      cases b <;> simp [drBEq]
      exact drBEq_sound r1 _
  | .dataOneOf l1, b => by cases b <;> simp [drBEq]
  | .datatypeRestriction d1 r1, b => by cases b <;> simp [drBEq]

def drListBEq_sound : (l1 l2 : List DataRange) → drListBEq l1 l2 = true → l1 = l2
  | [], [] => by simp
  | [], _ :: _ => by simp [drListBEq]
  | _ :: _, [] => by simp [drListBEq]
  | a :: as, b :: bs => by
      simp only [drListBEq, Bool.and_eq_true]
      intro h
      rw [drBEq_sound a b h.1, drListBEq_sound as bs h.2]

end

mutual

def drBEq_refl : (a : DataRange) → drBEq a a = true
  | .datatype d => by simp [drBEq]
  | .dataIntersectionOf l => by simpa [drBEq] using drListBEq_refl l
  | .dataUnionOf l => by simpa [drBEq] using drListBEq_refl l
  | .dataComplementOf r => by simpa [drBEq] using drBEq_refl r
  | .dataOneOf l => by simp [drBEq]
  | .datatypeRestriction d r => by simp [drBEq]

def drListBEq_refl : (l : List DataRange) → drListBEq l l = true
  | [] => rfl
  | a :: as => by
      simp only [drListBEq, Bool.and_eq_true]
      exact ⟨drBEq_refl a, drListBEq_refl as⟩

end

instance : DecidableEq DataRange := fun a b =>
  if h : drBEq a b = true then isTrue (drBEq_sound a b h)
  else isFalse (fun he => h (he ▸ drBEq_refl a))

/-- Class axioms (src/lib.rs `ClassAxiom`). -/
inductive ClassAxiom where
  | subClassOf : ClassExpression → ClassExpression → ClassAxiom
  | equivalentClasses : List ClassExpression → ClassAxiom
  | disjointClasses : List ClassExpression → ClassAxiom
  | disjointUnion : Class → List ClassExpression → ClassAxiom
deriving DecidableEq

/-- Object property axioms (src/lib.rs `ObjectPropertyAxiom`). -/
inductive ObjectPropertyAxiom where
  | subObjectPropertyOf : ObjectPropertyExpression → ObjectPropertyExpression → ObjectPropertyAxiom
  | equivalentObjectProperties : List ObjectPropertyExpression → ObjectPropertyAxiom
  | disjointObjectProperties : List ObjectPropertyExpression → ObjectPropertyAxiom
  | inverseObjectProperties : ObjectPropertyExpression → ObjectPropertyExpression → ObjectPropertyAxiom
  | objectPropertyDomain : ObjectPropertyExpression → ClassExpression → ObjectPropertyAxiom
  | objectPropertyRange : ObjectPropertyExpression → ClassExpression → ObjectPropertyAxiom
  | functionalObjectProperty : ObjectPropertyExpression → ObjectPropertyAxiom
  | inverseFunctionalObjectProperty : ObjectPropertyExpression → ObjectPropertyAxiom
  | reflexiveObjectProperty : ObjectPropertyExpression → ObjectPropertyAxiom
  | irreflexiveObjectProperty : ObjectPropertyExpression → ObjectPropertyAxiom
  | symmetricObjectProperty : ObjectPropertyExpression → ObjectPropertyAxiom
  | asymmetricObjectProperty : ObjectPropertyExpression → ObjectPropertyAxiom
  | transitiveObjectProperty : ObjectPropertyExpression → ObjectPropertyAxiom
deriving DecidableEq

/-- Data property axioms (src/lib.rs `DataPropertyAxiom`). -/
inductive DataPropertyAxiom where
  | subDataPropertyOf : DataProperty → DataProperty → DataPropertyAxiom
  | equivalentDataProperties : List DataProperty → DataPropertyAxiom
  | disjointDataProperties : List DataProperty → DataPropertyAxiom
  | dataPropertyDomain : DataProperty → ClassExpression → DataPropertyAxiom
  | dataPropertyRange : DataProperty → DataRange → DataPropertyAxiom
  | functionalDataProperty : DataProperty → DataPropertyAxiom
deriving DecidableEq

/-- Assertions about individuals (src/lib.rs `Assertion`). -/
inductive Assertion where
  | sameIndividual : List Individual → Assertion
  | differentIndividuals : List Individual → Assertion
  | classAssertion : ClassExpression → Individual → Assertion
  | objectPropertyAssertion : ObjectPropertyExpression → Individual → Individual → Assertion
  | dataPropertyAssertion : DataProperty → Individual → Literal → Assertion
  | negativeObjectPropertyAssertion : ObjectPropertyExpression → Individual → Individual → Assertion
  | negativeDataPropertyAssertion : DataProperty → Individual → Literal → Assertion
  | hasKey : Class → List ObjectPropertyExpression → List DataProperty → Assertion
deriving DecidableEq

/-- A general axiom (src/lib.rs `Axiom`). -/
inductive Axiom where
  | class_ : ClassAxiom → Axiom
  | objectProperty : ObjectPropertyAxiom → Axiom
  | dataProperty : DataPropertyAxiom → Axiom
  | assertion : Assertion → Axiom
deriving DecidableEq

/-- A complete ontology (src/lib.rs `Ontology`). -/
structure Ontology where
  direct_imports : List IRI
  axioms : List Axiom
deriving DecidableEq

/-- A node in the completion graph (src/reasoner.rs `Node`). -/
structure Node where
  individual : Individual
  concepts : List ClassExpression
  roles : List (ObjectPropertyExpression × Individual)
deriving DecidableEq

/-- The completion graph (src/reasoner.rs `CompletionGraph`). -/
structure CompletionGraph where
  nodes : List Node
  next_fresh_id : Nat
deriving DecidableEq

/-- Embeds `CompletionGraph::new()`: the empty graph. -/
def emptyGraph : CompletionGraph := ⟨[], 0⟩

/-- Embeds `Vec::contains` on a concept list (structural equality). -/
def containsCE : List ClassExpression → ClassExpression → Bool
  | [], _ => false
  | c :: cs, x => if x = c then true else containsCE cs x

/-- Embeds `Vec::contains` on a role list (structural equality). -/
def containsRole : List (ObjectPropertyExpression × Individual) →
    ObjectPropertyExpression × Individual → Bool
  | [], _ => false
  | r :: rs, x => if x = r then true else containsRole rs x

/-- Embeds `iter().position(|n| &n.individual == individual)` over the node list. -/
def findNodeIdx : List Node → Individual → Option Nat
  | [], _ => none
  | n :: ns, i => if n.individual = i then some 0 else (findNodeIdx ns i).map (· + 1)

/-- Replace the node at an index by applying a function (models in-place mutation). -/
def modifyNode : List Node → Nat → (Node → Node) → List Node
  | [], _, _ => []
  | n :: ns, 0, f => f n :: ns
  | n :: ns, k + 1, f => n :: modifyNode ns k f

/-- Embeds `CompletionGraph::get_or_create_node` restricted to its node-creating effect:
find the first node for the individual, appending an empty node if absent. -/
def getOrCreateNodes : List Node → Individual → List Node
  | [], i => [⟨i, [], []⟩]
  | n :: ns, i => if n.individual = i then n :: ns else n :: getOrCreateNodes ns i

/-- Embeds `get_or_create_node` lifted to the graph. -/
def getOrCreateNode (g : CompletionGraph) (i : Individual) : CompletionGraph :=
  { g with nodes := getOrCreateNodes g.nodes i }

/-- Embeds `CompletionGraph::add_concept` on the node list, also reporting whether the
concept list grew (the rules inline this get-or-create / contains / push sequence
and record the flag). -/
def addConceptNodes : List Node → Individual → ClassExpression → List Node × Bool
  | [], i, c => ([⟨i, [c], []⟩], true)
  | n :: ns, i, c =>
      if n.individual = i then
        if containsCE n.concepts c then (n :: ns, false)
        else ({ n with concepts := n.concepts ++ [c] } :: ns, true)
      else
        let r := addConceptNodes ns i c
        (n :: r.1, r.2)

/-- Embeds `add_concept` with the grew flag, on the graph. -/
def addConceptF (g : CompletionGraph) (i : Individual) (c : ClassExpression) :
    CompletionGraph × Bool :=
  let r := addConceptNodes g.nodes i c
  ({ g with nodes := r.1 }, r.2)

/-- Embeds `CompletionGraph::add_concept` (returns no flag in the source). -/
def addConcept (g : CompletionGraph) (i : Individual) (c : ClassExpression) : CompletionGraph :=
  (addConceptF g i c).1

/-- Embeds `CompletionGraph::add_role` on the node list: get-or-create the source node,
push the role pair if missing. The target individual gets no node. -/
def addRoleNodes : List Node → Individual → ObjectPropertyExpression → Individual → List Node
  | [], s, p, t => [⟨s, [], [(p, t)]⟩]
  | n :: ns, s, p, t =>
      if n.individual = s then
        if containsRole n.roles (p, t) then n :: ns
        else { n with roles := n.roles ++ [(p, t)] } :: ns
      else n :: addRoleNodes ns s p t

/-- Embeds `CompletionGraph::add_role` on the graph. -/
def addRole (g : CompletionGraph) (s : Individual) (p : ObjectPropertyExpression)
    (t : Individual) : CompletionGraph :=
  { g with nodes := addRoleNodes g.nodes s p t }

/-- Decimal rendering of a natural number, little-endian digit list (fueled so that
it reduces in the kernel). -/
def digitsAux : Nat → Nat → List Nat
  | 0, _ => []
  | _ + 1, 0 => []
  | fuel + 1, n + 1 => (n + 1) % 10 :: digitsAux fuel ((n + 1) / 10)

/-- Decimal rendering of a natural number, as Rust `format!` prints `u32`. -/
def natRepr (n : Nat) : String := if n = 0 then "0" else ⟨(digitsAux n n).reverse.map Nat.digitChar⟩

/-- The anonymous individual `_:fresh{n}`. -/
def freshInd (n : Nat) : Individual := .anonymous ⟨"_:fresh" ++ natRepr n⟩

/-- Embeds `CompletionGraph::fresh_individual`: bump the counter, mint `_:fresh{n}`. -/
def freshIndividual (g : CompletionGraph) : CompletionGraph × Individual :=
  let n := g.next_fresh_id + 1
  ({ g with next_fresh_id := n }, freshInd n)

/-- Embeds `TableauReasoner::initialize`, one assertion (non-assertion axioms are skipped). -/
def initAssertion (g : CompletionGraph) : Assertion → CompletionGraph
  | .classAssertion cls individual => addConcept g individual cls
  | .objectPropertyAssertion property source target => addRole g source property target
  | .dataPropertyAssertion _ source _ => getOrCreateNode g source
  | .sameIndividual individuals => individuals.foldl (fun g i => getOrCreateNode g i) g
  | .differentIndividuals individuals => individuals.foldl (fun g i => getOrCreateNode g i) g
  | .negativeObjectPropertyAssertion _ source _ => getOrCreateNode g source
  | .negativeDataPropertyAssertion _ source _ => getOrCreateNode g source
  | .hasKey _ _ _ => g

/-- Embeds `TableauReasoner::initialize`: seed the graph from the ontology's assertions,
in axiom order; every other axiom kind is ignored. -/
def initGraph (o : Ontology) (g : CompletionGraph) : CompletionGraph :=
  o.axioms.foldl
    (fun g ax =>
      match ax with
      | .assertion a => initAssertion g a
      | _ => g)
    g

/-- Embeds `TableauReasoner::has_clash`: some node holds both a complement concept and
the complemented concept. -/
def hasClash (g : CompletionGraph) : Bool :=
  g.nodes.any fun node =>
    node.concepts.any fun c =>
      match c with
      | .objectComplementOf e => containsCE node.concepts e
      | _ => false

/-- Body of `apply_conjunction_rule` for one snapshot entry: add every conjunct of an
intersection concept to the individual's node (get-or-create, contains check, push). -/
def conjStep (acc : CompletionGraph × Bool) (ind : Individual) (concept : ClassExpression) :
    CompletionGraph × Bool :=
  match concept with
  | .objectIntersectionOf conjuncts =>
      conjuncts.foldl
        (fun acc3 conjunct =>
          let r := addConceptF acc3.1 ind conjunct
          (r.1, acc3.2 || r.2))
        acc
  | _ => acc

/-- One scan of `apply_conjunction_rule`'s inner loop: over a snapshot of the nodes,
add every conjunct of every intersection concept to its node. -/
def applyConjunctionPass (g : CompletionGraph) : CompletionGraph × Bool :=
  g.nodes.foldl
    (fun acc node => node.concepts.foldl (fun acc2 c => conjStep acc2 node.individual c) acc)
    (g, false)

/-- Embeds `TableauReasoner::apply_conjunction_rule`: iterate the scan to its inner fixed
point (fueled), reporting whether anything was ever added. -/
def applyConjunctionRule : Nat → CompletionGraph → CompletionGraph × Bool
  | 0, g => (g, false)
  | fuel + 1, g =>
      let r := applyConjunctionPass g
      if r.2 then
        let r2 := applyConjunctionRule fuel r.1
        (r2.1, true)
      else (r.1, false)

/-- Body of `apply_disjunction_rule` for one snapshot entry: add the first disjunct of a
nonempty union concept to the individual's node. -/
def disjStep (acc : CompletionGraph × Bool) (ind : Individual) (concept : ClassExpression) :
    CompletionGraph × Bool :=
  match concept with
  | .objectUnionOf disjuncts =>
      match disjuncts with
      | [] => acc
      | first :: _ =>
          let r := addConceptF acc.1 ind first
          (r.1, acc.2 || r.2)
  | _ => acc

/-- Embeds `TableauReasoner::apply_disjunction_rule`: over a snapshot of the nodes, add the
first disjunct of every nonempty union concept to its node. -/
def applyDisjunctionRule (g : CompletionGraph) : CompletionGraph × Bool :=
  g.nodes.foldl
    (fun acc node => node.concepts.foldl (fun acc2 c => disjStep acc2 node.individual c) acc)
    (g, false)

/-- First role whose property equals the given one (`find` in `apply_existential_rule`). -/
def findFirstRole : List (ObjectPropertyExpression × Individual) → ObjectPropertyExpression →
    Option Individual
  | [], _ => none
  | r :: rs, property => if r.1 = property then some r.2 else findFirstRole rs property

/-- Body of `apply_existential_rule` for one snapshot entry: if the node has a role for
the property, push the filler onto that first target's node (when the target has a node
and lacks the filler); otherwise mint a fresh individual, add the role edge and a new
node holding exactly the filler. The `none` branch of the node lookup models the
source's `unwrap`, which cannot fire because snapshot nodes persist. -/
def existStep (acc : CompletionGraph × Bool) (ind : Individual) (concept : ClassExpression) :
    CompletionGraph × Bool :=
  match concept with
  | .objectSomeValuesFrom property filler =>
      let g := acc.1
      match findNodeIdx g.nodes ind with
      | none => acc
      | some k =>
          match g.nodes.get? k with
          | none => acc
          | some node =>
              match findFirstRole node.roles property with
              | some target =>
                  match findNodeIdx g.nodes target with
                  | none => acc
                  | some ti =>
                      match g.nodes.get? ti with
                      | none => acc
                      | some tnode =>
                          if containsCE tnode.concepts filler then acc
                          else
                            let ns := modifyNode g.nodes ti
                              fun n => { n with concepts := n.concepts ++ [filler] }
                            ({ g with nodes := ns }, true)
              | none =>
                  let r := freshIndividual g
                  let ns := modifyNode r.1.nodes k
                    fun n => { n with roles := n.roles ++ [(property, r.2)] }
                  ({ r.1 with nodes := ns ++ [⟨r.2, [filler], []⟩] }, true)
  | _ => acc

/-- Embeds `TableauReasoner::apply_existential_rule`: fold `existStep` over a snapshot. -/
def applyExistentialRule (g : CompletionGraph) : CompletionGraph × Bool :=
  g.nodes.foldl
    (fun acc node => node.concepts.foldl (fun acc2 c => existStep acc2 node.individual c) acc)
    (g, false)

/-- Body of `apply_universal_rule` for one snapshot entry: push the filler onto every
current target of a role for the property (when the target has a node lacking it). -/
def univStep (acc : CompletionGraph × Bool) (ind : Individual) (concept : ClassExpression) :
    CompletionGraph × Bool :=
  match concept with
  | .objectAllValuesFrom property filler =>
      let g := acc.1
      match findNodeIdx g.nodes ind with
      | none => acc
      | some k =>
          match g.nodes.get? k with
          | none => acc
          | some node =>
              let targets := (node.roles.filter (fun r => decide (r.1 = property))).map (·.2)
              targets.foldl
                (fun acc3 target =>
                  match findNodeIdx acc3.1.nodes target with
                  | none => acc3
                  | some ti =>
                      match acc3.1.nodes.get? ti with
                      | none => acc3
                      | some tnode =>
                          if containsCE tnode.concepts filler then acc3
                          else
                            let ns := modifyNode acc3.1.nodes ti
                              fun n => { n with concepts := n.concepts ++ [filler] }
                            ({ acc3.1 with nodes := ns }, true))
                acc
  | _ => acc

/-- Embeds `TableauReasoner::apply_universal_rule`: fold `univStep` over a snapshot. -/
def applyUniversalRule (g : CompletionGraph) : CompletionGraph × Bool :=
  g.nodes.foldl
    (fun acc node => node.concepts.foldl (fun acc2 c => univStep acc2 node.individual c) acc)
    (g, false)

/-- One iteration of `is_consistent`'s expansion loop: all four rules in order,
reporting whether any of them added something. -/
def expandStep (fuel : Nat) (g : CompletionGraph) : CompletionGraph × Bool :=
  let r1 := applyConjunctionRule fuel g
  let r2 := applyDisjunctionRule r1.1
  let r3 := applyExistentialRule r2.1
  let r4 := applyUniversalRule r3.1
  (r4.1, r1.2 || r2.2 || r3.2 || r4.2)

/-- Embeds `is_consistent`'s `while new_added` loop, fueled: stop when an iteration adds
nothing (further fuel then changes nothing). -/
def expandLoop : Nat → CompletionGraph → CompletionGraph
  | 0, g => g
  | fuel + 1, g =>
      let r := expandStep (fuel + 1) g
      if r.2 then expandLoop fuel r.1 else r.1

/-- Embeds `TableauReasoner::is_consistent` run on a reasoner whose graph already holds `g`:
initialize from the ontology's assertions, expand to saturation, report no clash. -/
def isConsistentFrom (fuel : Nat) (o : Ontology) (g : CompletionGraph) : Bool :=
  !hasClash (expandLoop fuel (initGraph o g))

/-- Embeds `TableauReasoner::is_consistent` on a freshly constructed reasoner. -/
def isConsistent (fuel : Nat) (o : Ontology) : Bool :=
  isConsistentFrom fuel o emptyGraph

/-- The direct-assertion scan inside `is_instance_of`: the first node for the
individual holds the atomic class among its concepts. -/
def directlyAsserted (g : CompletionGraph) (individual : Individual) (cls : Class) : Bool :=
  match findNodeIdx g.nodes individual with
  | none => false
  | some k =>
      match g.nodes.get? k with
      | none => false
      | some node =>
          node.concepts.any fun c =>
            match c with
            | .class_ c' => decide (c' = cls)
            | _ => false

/-- Embeds `TableauReasoner::is_instance_of`: return false if the ontology is inconsistent;
else true on a direct assertion in the saturated graph; else test whether adding
`¬cls` at the individual to the saturated graph makes the ontology inconsistent. -/
def isInstanceOf (fuel : Nat) (o : Ontology) (individual : Individual) (cls : Class) : Bool :=
  let g := expandLoop fuel (initGraph o emptyGraph)
  if hasClash g then false
  else if directlyAsserted g individual cls then true
  else
    let g2 := addConcept g individual (.objectComplementOf (.class_ cls))
    !(isConsistentFrom fuel o g2)

/-- The anonymous test individual `_:test` used by `is_subsumed_by`. -/
def testIndividual : Individual := .anonymous ⟨"_:test"⟩

/-- Embeds `TableauReasoner::is_subsumed_by`: seed a fresh graph with `C ⊓ ¬D` at `_:test`
and report whether the resulting run is inconsistent. -/
def isSubsumedBy (fuel : Nat) (o : Ontology) (class_c class_d : Class) : Bool :=
  let intersection := ClassExpression.objectIntersectionOf
    [.class_ class_c, .objectComplementOf (.class_ class_d)]
  let g := addConcept emptyGraph testIndividual intersection
  !(isConsistentFrom fuel o g)

mutual

/-- Embeds `TableauReasoner::extract_classes_from_expression` (accumulator-passing form). -/
def extractClassesFromExpression : ClassExpression → List Class → List Class
  | .class_ c, acc => acc ++ [c]
  | .objectIntersectionOf l, acc => extractClassesFromList l acc
  | .objectUnionOf l, acc => extractClassesFromList l acc
  | .objectComplementOf e, acc => extractClassesFromExpression e acc
  | .objectSomeValuesFrom _ f, acc => extractClassesFromExpression f acc
  | .objectAllValuesFrom _ f, acc => extractClassesFromExpression f acc
  | .objectMinCardinality _ _ (some f), acc => extractClassesFromExpression f acc
  | .objectMaxCardinality _ _ (some f), acc => extractClassesFromExpression f acc
  | .objectExactCardinality _ _ (some f), acc => extractClassesFromExpression f acc
  | _, acc => acc

/-- Embeds `extract_classes_from_expression` over a list of expressions. -/
def extractClassesFromList : List ClassExpression → List Class → List Class
  | [], acc => acc
  | e :: es, acc => extractClassesFromList es (extractClassesFromExpression e acc)

end

/-- The per-axiom step of `TableauReasoner::extract_classes`. -/
def extractClassesAxiom (acc : List Class) : Axiom → List Class
  | .class_ (.subClassOf sub sup) =>
      extractClassesFromExpression sup (extractClassesFromExpression sub acc)
  | .class_ (.equivalentClasses l) => extractClassesFromList l acc
  | .class_ (.disjointClasses l) => extractClassesFromList l acc
  | .class_ (.disjointUnion c l) => extractClassesFromList l (acc ++ [c])
  | .objectProperty (.objectPropertyDomain _ domain) => extractClassesFromExpression domain acc
  | .objectProperty (.objectPropertyRange _ range) => extractClassesFromExpression range acc
  | .objectProperty _ => acc
  | .dataProperty (.dataPropertyDomain _ domain) => extractClassesFromExpression domain acc
  | .dataProperty _ => acc
  | .assertion (.classAssertion cls _) => extractClassesFromExpression cls acc
  | .assertion _ => acc

/-- Membership test on a list of classes. -/
def containsClassList : List Class → Class → Bool
  | [], _ => false
  | c :: cs, x => if x = c then true else containsClassList cs x

/-- The `HashSet` deduplication at the end of `extract_classes`: keep first occurrences. -/
def dedupClasses : List Class → List Class → List Class
  | _, [] => []
  | seen, c :: cs =>
      if containsClassList seen c then dedupClasses seen cs
      else c :: dedupClasses (seen ++ [c]) cs

/-- Embeds `TableauReasoner::extract_classes`. -/
def extractClasses (o : Ontology) : List Class :=
  dedupClasses [] (o.axioms.foldl extractClassesAxiom [])

/-- The class hierarchy (src/reasoner.rs `ClassHierarchy`); the two `HashMap`s are
modeled as association lists in first-insertion order. -/
structure ClassHierarchy where
  subclasses : List (Class × List Class)
  superclasses : List (Class × List Class)
deriving DecidableEq

/-- Embeds `hierarchy.entry(k).or_insert_with(Vec::new).push(v)` on the association list. -/
def mapPush : List (Class × List Class) → Class → Class → List (Class × List Class)
  | [], k, v => [(k, [v])]
  | e :: rest, k, v =>
      if e.1 = k then (e.1, e.2 ++ [v]) :: rest else e :: mapPush rest k v

/-- Embeds `TableauReasoner::classify`: empty hierarchy when inconsistent; otherwise record
each subsumption found over ordered pairs of distinct extracted classes. -/
def classify (fuel : Nat) (o : Ontology) : ClassHierarchy :=
  if !(isConsistent fuel o) then ⟨[], []⟩
  else
    let classes := extractClasses o
    classes.foldl
      (fun h c =>
        classes.foldl
          (fun h d =>
            if c ≠ d then
              if isSubsumedBy fuel o c d then
                { subclasses := mapPush h.subclasses d c,
                  superclasses := mapPush h.superclasses c d }
              else h
            else h)
          h)
      ⟨[], []⟩

/-- The OWL 2 profiles (src/owl2_profile.rs `OwlProfile`). -/
inductive OwlProfile where
  | EL
  | QL
  | RL
  | Full
deriving DecidableEq

/-- Result of profile checking (src/owl2_profile.rs `ProfileCheckResult`). -/
structure ProfileCheckResult where
  profile : OwlProfile
  conforms : Bool
  violations : List String
deriving DecidableEq

/-- Embeds `is_el_object_property_expression`. -/
def is_el_object_property_expression : ObjectPropertyExpression → Bool
  | .objectProperty _ => true
  | .inverseObjectProperty _ => true
  | .objectPropertyChain _ => false

mutual

/-- Embeds `is_el_class_expression`: atomic, intersection, existential, has-value only. -/
def is_el_class_expression : ClassExpression → Bool
  | .class_ _ => true
  | .objectIntersectionOf sub_exprs => is_el_class_expression_list sub_exprs
  | .objectSomeValuesFrom _ filler => is_el_class_expression filler
  | .objectHasValue _ _ => true
  | _ => false

/-- Embeds `iter().all(is_el_class_expression)`. -/
def is_el_class_expression_list : List ClassExpression → Bool
  | [] => true
  | e :: es => is_el_class_expression e && is_el_class_expression_list es

end

/-- Violations pushed by one pass of a per-expression EL check over a list. -/
def el_violations_over (msg : String) (check : ClassExpression → Bool)
    (l : List ClassExpression) : List String :=
  l.foldl (fun acc e => if check e then acc else acc ++ [msg]) []

/-- Embeds Rust `check_el_class_axiom`. -/
def checkElClassAxiom : ClassAxiom → List String
  | .subClassOf sub_class super_class =>
      (if is_el_class_expression sub_class then []
       else ["SubClassOf axiom has non-EL subclass expression"]) ++
      (if is_el_class_expression super_class then []
       else ["SubClassOf axiom has non-EL superclass expression"])
  | .equivalentClasses classes =>
      el_violations_over "EquivalentClasses axiom has non-EL class expression"
        is_el_class_expression classes
  | .disjointClasses classes =>
      el_violations_over "DisjointClasses axiom has non-EL class expression"
        is_el_class_expression classes
  | .disjointUnion _ disjoint_classes =>
      el_violations_over "DisjointUnion axiom has non-EL class expression"
        is_el_class_expression disjoint_classes

/-- Embeds Rust `check_el_object_property_axiom`. -/
def checkElObjectPropertyAxiom : ObjectPropertyAxiom → List String
  | .subObjectPropertyOf sub_property super_property =>
      (if is_el_object_property_expression sub_property then []
       else ["SubObjectPropertyOf axiom has non-EL sub-property expression"]) ++
      (if is_el_object_property_expression super_property then []
       else ["SubObjectPropertyOf axiom has non-EL super-property expression"])
  | .equivalentObjectProperties properties =>
      properties.foldl
        (fun acc p =>
          if is_el_object_property_expression p then acc
          else acc ++ ["EquivalentObjectProperties axiom has non-EL property expression"])
        []
  | .disjointObjectProperties properties =>
      properties.foldl
        (fun acc p =>
          if is_el_object_property_expression p then acc
          else acc ++ ["DisjointObjectProperties axiom has non-EL property expression"])
        []
  | .inverseObjectProperties prop1 prop2 =>
      (if is_el_object_property_expression prop1 then []
       else ["InverseObjectProperties axiom has non-EL property expression (first)"]) ++
      (if is_el_object_property_expression prop2 then []
       else ["InverseObjectProperties axiom has non-EL property expression (second)"])
  | .objectPropertyDomain property domain =>
      (if is_el_object_property_expression property then []
       else ["ObjectPropertyDomain axiom has non-EL property expression"]) ++
      (if is_el_class_expression domain then []
       else ["ObjectPropertyDomain axiom has non-EL domain expression"])
  | .objectPropertyRange property range =>
      (if is_el_object_property_expression property then []
       else ["ObjectPropertyRange axiom has non-EL property expression"]) ++
      (if is_el_class_expression range then []
       else ["ObjectPropertyRange axiom has non-EL range expression"])
  | .functionalObjectProperty property =>
      if is_el_object_property_expression property then []
      else ["FunctionalObjectProperty axiom has non-EL property expression"]
  | .inverseFunctionalObjectProperty property =>
      if is_el_object_property_expression property then []
      else ["InverseFunctionalObjectProperty axiom has non-EL property expression"]
  | .reflexiveObjectProperty property =>
      if is_el_object_property_expression property then []
      else ["ReflexiveObjectProperty axiom has non-EL property expression"]
  | .irreflexiveObjectProperty property =>
      if is_el_object_property_expression property then []
      else ["IrreflexiveObjectProperty axiom has non-EL property expression"]
  | .symmetricObjectProperty property =>
      if is_el_object_property_expression property then []
      else ["SymmetricObjectProperty axiom has non-EL property expression"]
  | .asymmetricObjectProperty property =>
      if is_el_object_property_expression property then []
      else ["AsymmetricObjectProperty axiom has non-EL property expression"]
  | .transitiveObjectProperty property =>
      if is_el_object_property_expression property then []
      else ["TransitiveObjectProperty axiom has non-EL property expression"]

/-- Embeds Rust `check_el_data_property_axiom`. -/
def checkElDataPropertyAxiom : DataPropertyAxiom → List String
  | .dataPropertyDomain _ domain =>
      if is_el_class_expression domain then []
      else ["DataPropertyDomain axiom has non-EL domain expression"]
  | .dataPropertyRange _ range =>
      match range with
      | .datatype _ => []
      | _ => ["DataPropertyRange axiom has non-EL range expression"]
  | _ => []

/-- Embeds `check_el_assertion`. -/
def check_el_assertion : Assertion → List String
  | .classAssertion cls _ =>
      if is_el_class_expression cls then []
      else ["ClassAssertion has non-EL class expression"]
  | .objectPropertyAssertion property _ _ =>
      if is_el_object_property_expression property then []
      else ["ObjectPropertyAssertion has non-EL property expression"]
  | .negativeObjectPropertyAssertion property _ _ =>
      if is_el_object_property_expression property then []
      else ["NegativeObjectPropertyAssertion has non-EL property expression"]
  | _ => []

/-- Embeds `check_el_profile`: concatenate the per-axiom violations in axiom order. -/
def check_el_profile (o : Ontology) : List String :=
  o.axioms.foldl
    (fun acc ax =>
      acc ++
        match ax with
        | .class_ a => checkElClassAxiom a
        | .objectProperty a => checkElObjectPropertyAxiom a
        | .dataProperty a => checkElDataPropertyAxiom a
        | .assertion a => check_el_assertion a)
    []

mutual

/-- Embeds `is_ql_valid_class_expression`. -/
def is_ql_valid_class_expression : ClassExpression → Bool
  | .class_ _ => true
  | .objectIntersectionOf sub_exprs => is_ql_valid_class_expression_list sub_exprs
  | .objectComplementOf sub_expr => is_ql_valid_class_expression sub_expr
  | .objectSomeValuesFrom _ filler => is_ql_valid_class_expression filler
  | .objectHasValue _ _ => true
  | _ => false

/-- Embeds `iter().all(is_ql_valid_class_expression)`. -/
def is_ql_valid_class_expression_list : List ClassExpression → Bool
  | [] => true
  | e :: es => is_ql_valid_class_expression e && is_ql_valid_class_expression_list es

end

/-- Embeds `is_ql_subclass_expression`: atomic classes only. -/
def is_ql_subclass_expression : ClassExpression → Bool
  | .class_ _ => true
  | _ => false

mutual

/-- Embeds `is_ql_superclass_expression`. -/
def is_ql_superclass_expression : ClassExpression → Bool
  | .class_ _ => true
  | .objectIntersectionOf sub_exprs => is_ql_superclass_expression_list sub_exprs
  | .objectComplementOf sub_expr => is_ql_valid_class_expression sub_expr
  | .objectSomeValuesFrom _ filler => is_ql_valid_class_expression filler
  | .objectHasValue _ _ => true
  | _ => false

/-- Embeds `iter().all(is_ql_superclass_expression)`. -/
def is_ql_superclass_expression_list : List ClassExpression → Bool
  | [] => true
  | e :: es => is_ql_superclass_expression e && is_ql_superclass_expression_list es

end

/-- Embeds Rust `check_ql_class_axiom`. -/
def checkQlClassAxiom : ClassAxiom → List String
  | .subClassOf sub_class super_class =>
      (if is_ql_subclass_expression sub_class then []
       else ["SubClassOf axiom has non-QL subclass expression"]) ++
      (if is_ql_superclass_expression super_class then []
       else ["SubClassOf axiom has non-QL superclass expression"])
  | .equivalentClasses classes =>
      classes.foldl
        (fun acc e =>
          if is_ql_valid_class_expression e then acc
          else acc ++ ["EquivalentClasses axiom has non-QL class expression"])
        []
  | .disjointClasses classes =>
      classes.foldl
        (fun acc e =>
          if is_ql_valid_class_expression e then acc
          else acc ++ ["DisjointClasses axiom has non-QL class expression"])
        []
  | .disjointUnion _ _ => ["DisjointUnion axiom is not allowed in QL profile"]

/-- Embeds Rust `check_ql_object_property_axiom`. -/
def checkQlObjectPropertyAxiom : ObjectPropertyAxiom → List String
  | .subObjectPropertyOf sub_property super_property =>
      (match sub_property with
       | .objectPropertyChain _ =>
           ["SubObjectPropertyOf with property chain is not allowed in QL profile"]
       | _ => []) ++
      (match super_property with
       | .objectPropertyChain _ =>
           ["SubObjectPropertyOf with property chain is not allowed in QL profile"]
       | _ => [])
  | .transitiveObjectProperty _ => ["TransitiveObjectProperty axiom is not allowed in QL profile"]
  | .functionalObjectProperty _ => ["FunctionalObjectProperty axiom is not allowed in QL profile"]
  | .inverseFunctionalObjectProperty _ =>
      ["InverseFunctionalObjectProperty axiom is not allowed in QL profile"]
  | _ => []

/-- Embeds Rust `check_ql_data_property_axiom`. -/
def checkQlDataPropertyAxiom : DataPropertyAxiom → List String
  | .functionalDataProperty _ => ["FunctionalDataProperty axiom is not allowed in QL profile"]
  | _ => []

/-- Embeds `check_ql_assertion`. -/
def check_ql_assertion : Assertion → List String
  | .sameIndividual _ => ["SameIndividual assertion is not allowed in QL profile"]
  | .negativeObjectPropertyAssertion _ _ _ =>
      ["NegativeObjectPropertyAssertion is not allowed in QL profile"]
  | .negativeDataPropertyAssertion _ _ _ =>
      ["NegativeDataPropertyAssertion is not allowed in QL profile"]
  | _ => []

/-- Embeds `check_ql_profile`. -/
def check_ql_profile (o : Ontology) : List String :=
  o.axioms.foldl
    (fun acc ax =>
      acc ++
        match ax with
        | .class_ a => checkQlClassAxiom a
        | .objectProperty a => checkQlObjectPropertyAxiom a
        | .dataProperty a => checkQlDataPropertyAxiom a
        | .assertion a => check_ql_assertion a)
    []

/-- Embeds `is_rl_object_property_expression`. -/
def is_rl_object_property_expression : ObjectPropertyExpression → Bool
  | .objectProperty _ => true
  | .inverseObjectProperty _ => true
  | .objectPropertyChain _ => false

mutual

/-- Embeds `is_rl_class_expression` (general position). -/
def is_rl_class_expression : ClassExpression → Bool
  | .class_ _ => true
  | .objectIntersectionOf sub_exprs => is_rl_class_expression_list sub_exprs
  | .objectUnionOf sub_exprs => is_rl_class_expression_list sub_exprs
  | .objectComplementOf sub_expr => is_rl_class_expression sub_expr
  | .objectOneOf individuals => !individuals.isEmpty
  | .objectSomeValuesFrom property filler =>
      is_rl_object_property_expression property && is_rl_class_expression filler
  | .objectAllValuesFrom property filler =>
      is_rl_object_property_expression property && is_rl_class_expression filler
  | .objectHasValue property _ => is_rl_object_property_expression property
  | .objectHasSelf property => is_rl_object_property_expression property
  | .objectMinCardinality min property filler =>
      decide (min ≤ 1) && is_rl_object_property_expression property &&
        is_rl_class_expression_opt filler
  | .objectMaxCardinality max property filler =>
      decide (max ≤ 1) && is_rl_object_property_expression property &&
        is_rl_class_expression_opt filler
  | .objectExactCardinality cardinality property filler =>
      decide (cardinality ≤ 1) && is_rl_object_property_expression property &&
        is_rl_class_expression_opt filler

/-- Embeds `iter().all(is_rl_class_expression)`. -/
def is_rl_class_expression_list : List ClassExpression → Bool
  | [] => true
  | e :: es => is_rl_class_expression e && is_rl_class_expression_list es

/-- Embeds `filler.as_ref().map_or(true, is_rl_class_expression)`. -/
def is_rl_class_expression_opt : Option ClassExpression → Bool
  | none => true
  | some f => is_rl_class_expression f

end

mutual

/-- Embeds `is_rl_valid_class_expression` (used for DisjointClasses; no property checks,
cardinality fillers checked with itself). -/
def is_rl_valid_class_expression : ClassExpression → Bool
  | .class_ _ => true
  | .objectIntersectionOf sub_exprs => is_rl_valid_class_expression_list sub_exprs
  | .objectUnionOf sub_exprs => is_rl_valid_class_expression_list sub_exprs
  | .objectComplementOf sub_expr => is_rl_valid_class_expression sub_expr
  | .objectOneOf individuals => !individuals.isEmpty
  | .objectSomeValuesFrom _ filler => is_rl_valid_class_expression filler
  | .objectAllValuesFrom _ filler => is_rl_valid_class_expression filler
  | .objectHasValue _ _ => true
  | .objectHasSelf _ => true
  | .objectMinCardinality min _ filler =>
      decide (min ≤ 1) && is_rl_valid_class_expression_opt filler
  | .objectMaxCardinality max _ filler =>
      decide (max ≤ 1) && is_rl_valid_class_expression_opt filler
  | .objectExactCardinality cardinality _ filler =>
      decide (cardinality ≤ 1) && is_rl_valid_class_expression_opt filler

/-- Embeds `iter().all(is_rl_valid_class_expression)`. -/
def is_rl_valid_class_expression_list : List ClassExpression → Bool
  | [] => true
  | e :: es => is_rl_valid_class_expression e && is_rl_valid_class_expression_list es

/-- Embeds `filler.as_ref().map_or(true, is_rl_valid_class_expression)`. -/
def is_rl_valid_class_expression_opt : Option ClassExpression → Bool
  | none => true
  | some f => is_rl_valid_class_expression f

end

mutual

/-- Embeds `is_rl_subclass_expression`. -/
def is_rl_subclass_expression : ClassExpression → Bool
  | .class_ _ => true
  | .objectIntersectionOf sub_exprs => is_rl_subclass_expression_list sub_exprs
  | .objectUnionOf sub_exprs => is_rl_subclass_expression_list sub_exprs
  | .objectOneOf individuals => !individuals.isEmpty
  | .objectSomeValuesFrom property filler =>
      is_rl_object_property_expression property && is_rl_class_expression filler
  | .objectHasValue property _ => is_rl_object_property_expression property
  | _ => false

/-- Embeds `iter().all(is_rl_subclass_expression)`. -/
def is_rl_subclass_expression_list : List ClassExpression → Bool
  | [] => true
  | e :: es => is_rl_subclass_expression e && is_rl_subclass_expression_list es

end

mutual

/-- Embeds `is_rl_superclass_expression`. -/
def is_rl_superclass_expression : ClassExpression → Bool
  | .class_ _ => true
  | .objectIntersectionOf sub_exprs => is_rl_superclass_expression_list sub_exprs
  | .objectComplementOf sub_expr => is_rl_class_expression sub_expr
  | .objectSomeValuesFrom property filler =>
      is_rl_object_property_expression property && is_rl_class_expression filler
  | .objectAllValuesFrom property filler =>
      is_rl_object_property_expression property && is_rl_class_expression filler
  | .objectHasValue property _ => is_rl_object_property_expression property
  | .objectMaxCardinality max property filler =>
      decide (max ≤ 1) && is_rl_object_property_expression property &&
        is_rl_class_expression_opt filler
  | _ => false

/-- Embeds `iter().all(is_rl_superclass_expression)`. -/
def is_rl_superclass_expression_list : List ClassExpression → Bool
  | [] => true
  | e :: es => is_rl_superclass_expression e && is_rl_superclass_expression_list es

end

mutual

/-- Embeds `is_rl_equivalent_expression`. -/
def is_rl_equivalent_expression : ClassExpression → Bool
  | .class_ _ => true
  | .objectIntersectionOf sub_exprs => is_rl_equivalent_expression_list sub_exprs
  | .objectHasValue property _ => is_rl_object_property_expression property
  | _ => false

/-- Embeds `iter().all(is_rl_equivalent_expression)`. -/
def is_rl_equivalent_expression_list : List ClassExpression → Bool
  | [] => true
  | e :: es => is_rl_equivalent_expression e && is_rl_equivalent_expression_list es

end

/-- Embeds Rust `check_rl_class_axiom`. -/
def checkRlClassAxiom : ClassAxiom → List String
  | .subClassOf sub_class super_class =>
      (if is_rl_subclass_expression sub_class then []
       else ["SubClassOf axiom has non-RL subclass expression"]) ++
      (if is_rl_superclass_expression super_class then []
       else ["SubClassOf axiom has non-RL superclass expression"])
  | .equivalentClasses classes =>
      classes.foldl
        (fun acc e =>
          if is_rl_equivalent_expression e then acc
          else acc ++ ["EquivalentClasses axiom has non-RL class expression"])
        []
  | .disjointClasses classes =>
      classes.foldl
        (fun acc e =>
          if is_rl_valid_class_expression e then acc
          else acc ++ ["DisjointClasses axiom has non-RL class expression"])
        []
  | .disjointUnion _ _ => ["DisjointUnion axiom is not allowed in RL profile"]

/-- Embeds Rust `check_rl_object_property_axiom`. -/
def checkRlObjectPropertyAxiom : ObjectPropertyAxiom → List String
  | .reflexiveObjectProperty _ => ["ReflexiveObjectProperty axiom is not allowed in RL profile"]
  | _ => []

/-- Embeds `check_rl_assertion`. -/
def check_rl_assertion : Assertion → List String
  | .classAssertion cls _ =>
      if is_rl_superclass_expression cls then []
      else ["ClassAssertion has non-RL class expression"]
  | _ => []

/-- Embeds `check_rl_profile` (`check_rl_data_property_axiom` produces no violations). -/
def check_rl_profile (o : Ontology) : List String :=
  o.axioms.foldl
    (fun acc ax =>
      acc ++
        match ax with
        | .class_ a => checkRlClassAxiom a
        | .objectProperty a => checkRlObjectPropertyAxiom a
        | .dataProperty _ => []
        | .assertion a => check_rl_assertion a)
    []

/-- Embeds `check_profile_compliance`: dispatch on the profile, conform iff no violations. -/
def check_profile_compliance (ontology : Ontology) (profile : OwlProfile) : ProfileCheckResult :=
  let violations :=
    match profile with
    | .EL => check_el_profile ontology
    | .QL => check_ql_profile ontology
    | .RL => check_rl_profile ontology
    | .Full => []
  { profile := profile, conforms := violations.isEmpty, violations := violations }

/-- Whether some node of the graph carries the given individual. -/
def hasNodeFor (g : CompletionGraph) (x : Individual) : Bool :=
  g.nodes.any fun n => decide (n.individual = x)

/-- Whether the node of the given individual (if any) carries the concept. -/
def conceptAt (g : CompletionGraph) (ind : Individual) (e : ClassExpression) : Bool :=
  match findNodeIdx g.nodes ind with
  | none => false
  | some k =>
      match g.nodes.get? k with
      | none => false
      | some n => containsCE n.concepts e

/-- Whether the node of the given individual (if any) carries the role pair. -/
def roleAt (g : CompletionGraph) (ind : Individual) (r : ObjectPropertyExpression × Individual) :
    Bool :=
  match findNodeIdx g.nodes ind with
  | none => false
  | some k =>
      match g.nodes.get? k with
      | none => false
      | some n => containsRole n.roles r

/-- Modelled from the spec: a completion graph is saturated when no expansion rule has
anything left to do — every conjunct of an intersection is present, at least one
disjunct of each union is present (a selection has been made), every existential has a
witnessing successor carrying the filler, and every universal's successors carry the
filler. -/
def specSaturated (g : CompletionGraph) : Bool :=
  g.nodes.all fun node =>
    node.concepts.all fun c =>
      match c with
      | .objectIntersectionOf l => l.all (containsCE node.concepts)
      | .objectUnionOf l => l.any (containsCE node.concepts)
      | .objectSomeValuesFrom p e =>
          node.roles.any fun r => decide (r.1 = p) && conceptAt g r.2 e
      | .objectAllValuesFrom p e =>
          node.roles.all fun r => !(decide (r.1 = p)) || conceptAt g r.2 e
      | _ => true

/-- Modelled from the spec: `g` extends `g0` when every concept and role of `g0` is
present in `g` (so `g` is a candidate completion of the ontology whose initialization
produced `g0`). -/
def graphExtends (g g0 : CompletionGraph) : Bool :=
  g0.nodes.all fun n =>
    n.concepts.all (conceptAt g n.individual) && n.roles.all (roleAt g n.individual)

/-- No two structurally equal entries in a concept list. -/
def nodupCE : List ClassExpression → Bool
  | [] => true
  | c :: cs => !containsCE cs c && nodupCE cs

/-- No two structurally equal entries in a role list. -/
def nodupRoles : List (ObjectPropertyExpression × Individual) → Bool
  | [] => true
  | r :: rs => !containsRole rs r && nodupRoles rs

/-- Each individual has at most one node in the list. -/
def nodupInd : List Node → Bool
  | [] => true
  | n :: ns => !(ns.any fun m => decide (m.individual = n.individual)) && nodupInd ns

/-- The claim's completion-graph invariant: at most one node per individual, and
deduplicated concept and role lists at every node. -/
def graphInv (g : CompletionGraph) : Bool :=
  nodupInd g.nodes && g.nodes.all fun n => nodupCE n.concepts && nodupRoles n.roles

/-- No individual of the shape `_:fresh{k}` with `k` above the fresh counter occurs in
the graph (so minting cannot collide with an existing node). -/
def freshOK (g : CompletionGraph) : Prop :=
  ∀ k, g.next_fresh_id < k → hasNodeFor g (freshInd k) = false

/-- Structural growth of a node list: every position keeps its node, with the concept
list only extended at the end (expansion never removes or reorders concepts). -/
def NodesLe (ns ns' : List Node) : Prop :=
  ∀ k n, ns.get? k = some n → ∃ n', ns'.get? k = some n' ∧ n.concepts <+: n'.concepts

/-- Value of a little-endian digit list (left inverse of `digitsAux`). -/
def undigits : List Nat → Nat
  | [] => 0
  | d :: ds => d + 10 * undigits ds

/-- The assertion axioms of an ontology, in order (what `initialize` consumes). -/
def assertionList (o : Ontology) : List Assertion :=
  o.axioms.filterMap fun ax =>
    match ax with
    | .assertion a => some a
    | _ => none

/-- Atomic class expression from a short IRI string (test fixture). -/
def mkC (s : String) : ClassExpression := .class_ ⟨⟨s⟩⟩

/-- Class from a short IRI string (test fixture). -/
def mkCl (s : String) : Class := ⟨⟨s⟩⟩

/-- Named individual from a short IRI string (test fixture). -/
def mkI (s : String) : Individual := .named ⟨s⟩

/-- Atomic object property expression from a short IRI string (test fixture). -/
def mkP (s : String) : ObjectPropertyExpression := .objectProperty ⟨⟨s⟩⟩

/-- The claim C1 ontology: Student ⊑ Person, GradStudent ⊑ Student, GradStudent(j). -/
def ontChain : Ontology :=
  ⟨[], [.class_ (.subClassOf (mkC "u:Student") (mkC "u:Person")),
        .class_ (.subClassOf (mkC "u:GradStudent") (mkC "u:Student")),
        .assertion (.classAssertion (mkC "u:GradStudent") (mkI "u:j"))]⟩

/-- The claim C2 ontology: (A ⊔ B)(i) and (¬A)(i). -/
def ontUnion : Ontology :=
  ⟨[], [.assertion (.classAssertion (.objectUnionOf [mkC "u:A", mkC "u:B"]) (mkI "u:i")),
        .assertion (.classAssertion (.objectComplementOf (mkC "u:A")) (mkI "u:i"))]⟩

/-- A completion graph for `ontUnion` in which the second disjunct B was selected:
node i carries A ⊔ B, ¬A and B. -/
def unionChoiceB : CompletionGraph :=
  ⟨[⟨mkI "u:i", [.objectUnionOf [mkC "u:A", mkC "u:B"],
      .objectComplementOf (mkC "u:A"), mkC "u:B"], []⟩], 0⟩

/-- The claim C3 cyclic ontology: Person ⊑ ∃hasParent.Person, Person(i). -/
def ontCyclic : Ontology :=
  ⟨[], [.class_ (.subClassOf (mkC "u:Person")
          (.objectSomeValuesFrom (mkP "u:hasParent") (mkC "u:Person"))),
        .assertion (.classAssertion (mkC "u:Person") (mkI "u:i"))]⟩

/-- The expression ∃P.A (nested-existential fixture). -/
def someA : ClassExpression := .objectSomeValuesFrom (mkP "u:P") (mkC "u:A")

/-- The expression ∃P.∃P.A (nested-existential fixture). -/
def someSomeA : ClassExpression := .objectSomeValuesFrom (mkP "u:P") someA

/-- An ontology whose expansion produces an anonymous node whose concept set is a
subset of its generator's: (∃P.∃P.A)(i), (∃P.A)(i), A(i). -/
def ontNested : Ontology :=
  ⟨[], [.assertion (.classAssertion someSomeA (mkI "u:i")),
        .assertion (.classAssertion someA (mkI "u:i")),
        .assertion (.classAssertion (mkC "u:A") (mkI "u:i"))]⟩

/-- The graph after the first expansion iteration on `ontNested`. -/
def nestedStep1 : CompletionGraph := (expandStep 10 (initGraph ontNested emptyGraph)).1

/-- The graph after the second expansion iteration on `ontNested`. -/
def nestedStep2 : CompletionGraph := (expandStep 10 nestedStep1).1

/-- The claim C4 inconsistent ontology: A(i) and (¬A)(i). -/
def ontClash : Ontology :=
  ⟨[], [.assertion (.classAssertion (mkC "u:A") (mkI "u:i")),
        .assertion (.classAssertion (.objectComplementOf (mkC "u:A")) (mkI "u:i"))]⟩

/-- The claim C5 ontology: DisjointClasses(S, E), S(i), E(i). -/
def ontDisjoint : Ontology :=
  ⟨[], [.class_ (.disjointClasses [mkC "u:S", mkC "u:E"]),
        .assertion (.classAssertion (mkC "u:S") (mkI "u:i")),
        .assertion (.classAssertion (mkC "u:E") (mkI "u:i"))]⟩

/-- Monotonicity fixture: P(i,b), (∃P.A)(i), (¬A)(b). -/
def ontMono : Ontology :=
  ⟨[], [.assertion (.objectPropertyAssertion (mkP "u:P") (mkI "u:i") (mkI "u:b")),
        .assertion (.classAssertion (.objectSomeValuesFrom (mkP "u:P") (mkC "u:A")) (mkI "u:i")),
        .assertion (.classAssertion (.objectComplementOf (mkC "u:A")) (mkI "u:b"))]⟩

/-- Embeds `ontMono` with one more role assertion P(i,c) prepended (a superset ontology). -/
def ontMonoExt : Ontology :=
  ⟨[], .assertion (.objectPropertyAssertion (mkP "u:P") (mkI "u:i") (mkI "u:c")) ::
        ontMono.axioms⟩

/-- Two ontologies with the same assertions, the second with an extra SubClassOf axiom. -/
def ontAssertOnly : Ontology :=
  ⟨[], [.assertion (.classAssertion (mkC "u:A") (mkI "u:i"))]⟩

/-- Embeds `ontAssertOnly` plus a SubClassOf axiom (same assertion list). -/
def ontAssertPlusTBox : Ontology :=
  ⟨[], [.class_ (.subClassOf (mkC "u:A") (mkC "u:B")),
        .assertion (.classAssertion (mkC "u:A") (mkI "u:i"))]⟩

/-- The claim C8 ontology: SubClassOf(A ⊔ B, C). -/
def ontUnionSub : Ontology :=
  ⟨[], [.class_ (.subClassOf (.objectUnionOf [mkC "u:A", mkC "u:B"]) (mkC "u:C"))]⟩

/-- A graph where node i carries ∃P.E and already has a P-successor j lacking E. -/
def graphExistReuse : CompletionGraph :=
  ⟨[⟨mkI "u:i", [.objectSomeValuesFrom (mkP "u:P") (mkC "u:E")], [(mkP "u:P", mkI "u:j")]⟩,
    ⟨mkI "u:j", [], []⟩], 0⟩

/-- A graph satisfying the dedup/uniqueness invariant that already contains an
individual literally named `_:fresh1` while the fresh counter is 0. -/
def graphFreshCollision : CompletionGraph :=
  ⟨[⟨mkI "u:i", [.objectSomeValuesFrom (mkP "u:P") (mkC "u:A")], []⟩,
    ⟨.anonymous ⟨"_:fresh1"⟩, [], []⟩], 0⟩

theorem containsCE_iff (l : List ClassExpression) (x : ClassExpression) :
    containsCE l x = true ↔ x ∈ l := by
  induction l with
  | nil => simp [containsCE]
  | cons c cs ih =>
      by_cases h : x = c
      · simp [containsCE, h]
      · simp [containsCE, h, ih]

theorem containsRole_iff (l : List (ObjectPropertyExpression × Individual))
    (x : ObjectPropertyExpression × Individual) : containsRole l x = true ↔ x ∈ l := by
  induction l with
  | nil => simp [containsRole]
  | cons r rs ih =>
      by_cases h : x = r
      · simp [containsRole, h]
      · simp [containsRole, h, ih]

theorem foldl_preserve {α β : Type} (P : α → Prop) (step : α → β → α)
    (hstep : ∀ acc x, P acc → P (step acc x)) :
    ∀ (l : List β) (init : α), P init → P (l.foldl step init) := by
  intro l
  induction l with
  | nil => intro init h; exact h
  | cons x xs ih => intro init h; exact ih _ (hstep init x h)

/-- C8: on the ontology containing only SubClassOf(A ⊔ B, C), the EL check reports
non-conformance with the single violation naming the (union) subclass expression,
and the RL check conforms with no violations. -/
theorem C8_el_violation_rl_conforms :
    check_profile_compliance ontUnionSub .EL =
      ⟨.EL, false, ["SubClassOf axiom has non-EL subclass expression"]⟩ ∧
    check_profile_compliance ontUnionSub .RL = ⟨.RL, true, []⟩ := by
  decide

/-- C5 counterexample: on DisjointClasses(S, E) with S(i) and E(i), `is_consistent`
returns true, contradicting the claimed false. -/
theorem C5_consistent_despite_disjointness : isConsistent 10 ontDisjoint = true := by
  decide

/-- C5 amended: `is_consistent` returns true on the disjointness ontology — the
DisjointClasses axiom is ignored by initialization (node i holds just S and E),
expansion adds nothing, and clash detection (which only looks for a concept next to
its complement) finds no clash. -/
theorem C5_disjointness_ignored :
    isConsistent 10 ontDisjoint = true ∧
    initGraph ontDisjoint emptyGraph = ⟨[⟨mkI "u:i", [mkC "u:S", mkC "u:E"], []⟩], 0⟩ ∧
    (expandStep 10 (initGraph ontDisjoint emptyGraph)).2 = false ∧
    hasClash (expandLoop 10 (initGraph ontDisjoint emptyGraph)) = false := by
  refine ⟨by decide, by decide, by decide, by decide⟩

/-- C1 counterexample: on the Student/GradStudent chain ontology,
`is_instance_of(j, Person)` returns false, not true as claimed. -/
theorem C1_instance_of_false :
    isInstanceOf 10 ontChain (mkI "u:j") (mkCl "u:Person") = false := by
  decide

/-- C1 amended: `is_consistent` is true, but no internalized TBox exists — the
initialized graph holds only the asserted concept GradStudent at j, saturation is
immediate, `is_instance_of(j, Person)` is false, and `classify` records no
subsumptions at all. -/
theorem C1_reasoner_ignores_tbox :
    isConsistent 10 ontChain = true ∧
    isInstanceOf 10 ontChain (mkI "u:j") (mkCl "u:Person") = false ∧
    classify 10 ontChain = ⟨[], []⟩ ∧
    initGraph ontChain emptyGraph = ⟨[⟨mkI "u:j", [mkC "u:GradStudent"], []⟩], 0⟩ ∧
    (expandStep 10 (initGraph ontChain emptyGraph)).2 = false := by
  refine ⟨by decide, by decide, by decide, by decide, by decide⟩

/-- C3 counterexample: on the nested-existential ontology, after the first expansion
iteration the anonymous node `_:fresh1` (generated from i, with a role edge from i)
has a concept set contained in i's and no successors; the claimed subset blocking
would forbid expanding it, yet the second iteration gives it a fresh P-successor. -/
theorem C3_blocked_node_expanded :
    nestedStep1.nodes.get? 0 =
      some ⟨mkI "u:i", [someSomeA, someA, mkC "u:A"], [(mkP "u:P", freshInd 1)]⟩ ∧
    nestedStep1.nodes.get? 1 = some ⟨freshInd 1, [someA, mkC "u:A"], []⟩ ∧
    (∀ c ∈ [someA, mkC "u:A"], c ∈ [someSomeA, someA, mkC "u:A"]) ∧
    (nestedStep2.nodes.get? 1).map (·.roles) = some [(mkP "u:P", freshInd 2)] := by
  refine ⟨by decide, by decide, by decide, by decide⟩

/-- C3 amended: there is no blocking machinery, but on the cyclic ontology
Person ⊑ ∃hasParent.Person with Person(i) the run still terminates with true: the
SubClassOf axiom is ignored, so the initialized graph has the single node i with
concept Person and the very first iteration already adds nothing. -/
theorem C3_no_blocking_cyclic_terminates :
    isConsistent 10 ontCyclic = true ∧
    initGraph ontCyclic emptyGraph = ⟨[⟨mkI "u:i", [mkC "u:Person"], []⟩], 0⟩ ∧
    (expandStep 10 (initGraph ontCyclic emptyGraph)).2 = false := by
  refine ⟨by decide, by decide, by decide⟩

/-- C2 counterexample: for the ontology with (A ⊔ B)(i) and (¬A)(i), selecting the
disjunct B yields a graph extending the initialized graph that is saturated (in the
spec's sense) and clash-free, yet `is_consistent` returns false — there is no
backtracking to the second disjunct. -/
theorem C2_clash_free_selection_rejected :
    graphExtends unionChoiceB (initGraph ontUnion emptyGraph) = true ∧
    specSaturated unionChoiceB = true ∧
    hasClash unionChoiceB = false ∧
    isConsistent 10 ontUnion = false := by
  refine ⟨by decide, by decide, by decide, by decide⟩

/-- C2 amended: the disjunction rule makes no nondeterministic, backtrackable choice:
it deterministically adds the head disjunct of a nonempty union (and nothing for an
empty one), so on the union ontology the engine commits to A, produces the clash
{A ⊔ B, ¬A, A} at i, and returns inconsistent although selecting B is clash-free. -/
theorem C2_first_disjunct_no_backtracking :
    (∀ (g : CompletionGraph) (b : Bool) (ind : Individual) (e : ClassExpression)
        (es : List ClassExpression),
      disjStep (g, b) ind (.objectUnionOf (e :: es)) =
        ((addConceptF g ind e).1, b || (addConceptF g ind e).2)) ∧
    (∀ (g : CompletionGraph) (b : Bool) (ind : Individual),
      disjStep (g, b) ind (.objectUnionOf []) = (g, b)) ∧
    isConsistent 10 ontUnion = false ∧
    expandLoop 10 (initGraph ontUnion emptyGraph) =
      ⟨[⟨mkI "u:i", [.objectUnionOf [mkC "u:A", mkC "u:B"],
          .objectComplementOf (mkC "u:A"), mkC "u:A"], []⟩], 0⟩ := by
  refine ⟨fun g b ind e es => rfl, fun g b ind => rfl, by decide, by decide⟩

/-- C6 counterexample: at a node with ∃P.E and an existing P-successor j that does not
carry E, the rule does not mint a fresh node (as the claim requires); it pushes E onto
j's node, leaving two nodes and the fresh counter untouched. -/
theorem C6_reuses_successor_without_filler :
    applyExistentialRule graphExistReuse =
      (⟨[⟨mkI "u:i", [.objectSomeValuesFrom (mkP "u:P") (mkC "u:E")],
          [(mkP "u:P", mkI "u:j")]⟩,
         ⟨mkI "u:j", [mkC "u:E"], []⟩], 0⟩, true) := by
  decide

/-- C9 counterexample: `add_role(i, P, j)` on the empty graph creates a node for the
source i only — no node for the target j is created (and the source function returns
no boolean). -/
theorem C9_no_target_node :
    addRole emptyGraph (mkI "u:i") (mkP "u:P") (mkI "u:j") =
      ⟨[⟨mkI "u:i", [], [(mkP "u:P", mkI "u:j")]⟩], 0⟩ ∧
    hasNodeFor (addRole emptyGraph (mkI "u:i") (mkP "u:P") (mkI "u:j")) (mkI "u:j") = false := by
  refine ⟨by decide, by decide⟩

/-- C10 counterexample: a graph satisfying the dedup/uniqueness invariant in which an
individual literally named `_:fresh1` already exists while the counter is 0; the
existential rule then mints `_:fresh1` again, so two nodes share one individual. -/
theorem C10_fresh_collision_breaks_uniqueness :
    graphInv graphFreshCollision = true ∧
    graphInv (applyExistentialRule graphFreshCollision).1 = false := by
  refine ⟨by decide, by decide⟩

/-- C6 amended: the ∃-rule's mint/reuse behaviour, characterized: with ∃P.E at the
node of `ind` (found at index k), (a) if that node has no P-role at all, the rule
mints `_:fresh{next+1}`, appends the edge and a new node holding exactly [E] (no Ω is
added — none exists); (b) if it has a P-role, the rule pushes E onto the node of the
first P-target when that node lacks E, and (c) does nothing when that node already
carries E — even when other P-successors lack E, no fresh node is minted. -/
theorem C6_existential_rule_characterization :
    ∀ (g : CompletionGraph) (b : Bool) (ind : Individual) (P : ObjectPropertyExpression)
      (E : ClassExpression) (k : Nat) (node : Node),
      findNodeIdx g.nodes ind = some k → g.nodes.get? k = some node →
      ((findFirstRole node.roles P = none →
          existStep (g, b) ind (.objectSomeValuesFrom P E) =
            (⟨modifyNode g.nodes k
                (fun n => { n with roles := n.roles ++ [(P, freshInd (g.next_fresh_id + 1))] }) ++
                [⟨freshInd (g.next_fresh_id + 1), [E], []⟩], g.next_fresh_id + 1⟩, true)) ∧
       (∀ (t : Individual) (ti : Nat) (tnode : Node), findFirstRole node.roles P = some t →
          findNodeIdx g.nodes t = some ti → g.nodes.get? ti = some tnode →
          (containsCE tnode.concepts E = false →
            existStep (g, b) ind (.objectSomeValuesFrom P E) =
              (⟨modifyNode g.nodes ti (fun n => { n with concepts := n.concepts ++ [E] }),
                 g.next_fresh_id⟩, true)) ∧
          (containsCE tnode.concepts E = true →
            existStep (g, b) ind (.objectSomeValuesFrom P E) = (g, b)))) := by
  intro g b ind P E k node hfind hget
  rw [List.get?_eq_getElem?] at hget
  constructor
  · intro hnone
    simp [existStep, hfind, hget, hnone, freshIndividual]
  · intro t ti tnode hrole htfind htget
    rw [List.get?_eq_getElem?] at htget
    constructor
    · intro hmiss
      simp [existStep, hfind, hget, hrole, htfind, htget, hmiss]
    · intro hhit
      simp [existStep, hfind, hget, hrole, htfind, htget, hhit]

/-- C6 witness: the characterization applied to the concrete reuse graph — the first
P-successor j lacks E, so the rule pushes E onto j's node. -/
theorem C6_witness :
    existStep (graphExistReuse, false) (mkI "u:i")
        (.objectSomeValuesFrom (mkP "u:P") (mkC "u:E")) =
      (⟨modifyNode graphExistReuse.nodes 1
          (fun n => { n with concepts := n.concepts ++ [mkC "u:E"] }),
         graphExistReuse.next_fresh_id⟩, true) :=
  ((C6_existential_rule_characterization graphExistReuse false (mkI "u:i") (mkP "u:P")
      (mkC "u:E") 0
      ⟨mkI "u:i", [.objectSomeValuesFrom (mkP "u:P") (mkC "u:E")], [(mkP "u:P", mkI "u:j")]⟩
      (by decide) (by decide)).2 (mkI "u:j") 1 ⟨mkI "u:j", [], []⟩
      (by decide) (by decide) (by decide)).1 (by decide)

theorem addRoleNodes_has (ns : List Node) (s : Individual) (P : ObjectPropertyExpression)
    (t : Individual) :
    ∃ n ∈ addRoleNodes ns s P t, n.individual = s ∧ containsRole n.roles (P, t) = true := by
  induction ns with
  | nil =>
      refine ⟨⟨s, [], [(P, t)]⟩, by simp [addRoleNodes], rfl, by simp [containsRole]⟩
  | cons n ns ih =>
      by_cases hs : n.individual = s
      · by_cases hr : containsRole n.roles (P, t) = true
        · exact ⟨n, by simp [addRoleNodes, hs, hr], hs, hr⟩
        · refine ⟨{ n with roles := n.roles ++ [(P, t)] }, by simp [addRoleNodes, hs, hr], hs, ?_⟩
          simp [containsRole_iff]
      · obtain ⟨m, hm, hms, hmr⟩ := ih
        exact ⟨m, by simp [addRoleNodes, hs]; exact Or.inr hm, hms, hmr⟩

theorem addRoleNodes_inds (ns : List Node) (s : Individual) (P : ObjectPropertyExpression)
    (t : Individual) (x : Individual) :
    ((addRoleNodes ns s P t).any fun n => decide (n.individual = x)) =
      ((ns.any fun n => decide (n.individual = x)) || decide (x = s)) := by
  induction ns with
  | nil => by_cases hx : x = s <;> simp [addRoleNodes, hx, eq_comm]
  | cons n ns ih =>
      by_cases hs : n.individual = s
      · by_cases hr : containsRole n.roles (P, t) = true
        · by_cases hx : x = s <;> simp [addRoleNodes, hs, hr, hx, eq_comm]
        · by_cases hx : x = s <;> simp [addRoleNodes, hs, hr, hx, eq_comm]
      · simp [addRoleNodes, hs, ih, Bool.or_assoc]

/-- C9 amended: `add_role(i, P, j)` ensures (P, j) is among the roles of a node for i,
creating a node for the source i if absent — but it creates no node for the target j
(the node set grows by exactly the source's individual), and the source function
returns no grew/shrank boolean. -/
theorem C9_add_role_characterization :
    ∀ (g : CompletionGraph) (s : Individual) (P : ObjectPropertyExpression) (t : Individual),
      (∃ n ∈ (addRole g s P t).nodes, n.individual = s ∧ containsRole n.roles (P, t) = true) ∧
      (∀ x, hasNodeFor (addRole g s P t) x = (hasNodeFor g x || decide (x = s))) := by
  intro g s P t
  refine ⟨addRoleNodes_has g.nodes s P t, fun x => ?_⟩
  simp only [hasNodeFor, addRole]
  exact addRoleNodes_inds g.nodes s P t x

theorem initGraph_assertions (o : Ontology) (g : CompletionGraph) :
    initGraph o g = (assertionList o).foldl initAssertion g := by
  unfold initGraph assertionList
  generalize o.axioms = axs
  induction axs generalizing g with
  | nil => rfl
  | cons ax rest ih =>
      cases ax with
      | assertion a => simpa [List.filterMap_cons] using ih (initAssertion g a)
      | class_ a => simpa [List.filterMap_cons] using ih g
      | objectProperty a => simpa [List.filterMap_cons] using ih g
      | dataProperty a => simpa [List.filterMap_cons] using ih g

/-- C7 amended: the reasoner's answers are functions of the assertion axioms alone —
if two ontologies carry the same assertions in the same order, `is_consistent` and
`is_subsumed_by` agree on them (all other axiom kinds are ignored); full monotonicity
over the axiom set fails (see the counterexample). -/
theorem C7_assertions_determine_results :
    ∀ (o o' : Ontology) (fuel : Nat), assertionList o = assertionList o' →
      isConsistent fuel o = isConsistent fuel o' ∧
      ∀ c d, isSubsumedBy fuel o c d = isSubsumedBy fuel o' c d := by
  intro o o' fuel h
  constructor
  · unfold isConsistent isConsistentFrom
    rw [initGraph_assertions, initGraph_assertions, h]
  · intro c d
    unfold isSubsumedBy isConsistentFrom
    simp only [initGraph_assertions, h]

/-- C7 witness: adding a SubClassOf axiom leaves the assertion list unchanged, so
consistency and the subsumption verdict are unchanged. -/
theorem C7_witness :
    assertionList ontAssertOnly = assertionList ontAssertPlusTBox ∧
    isConsistent 10 ontAssertOnly = isConsistent 10 ontAssertPlusTBox ∧
    isSubsumedBy 10 ontAssertOnly (mkCl "u:A") (mkCl "u:B") =
      isSubsumedBy 10 ontAssertPlusTBox (mkCl "u:A") (mkCl "u:B") :=
  ⟨by decide,
   (C7_assertions_determine_results ontAssertOnly ontAssertPlusTBox 10 (by decide)).1,
   (C7_assertions_determine_results ontAssertOnly ontAssertPlusTBox 10 (by decide)).2
     (mkCl "u:A") (mkCl "u:B")⟩

/-- C7 counterexample: `ontMonoExt` contains every axiom of `ontMono` (plus one more
role assertion), yet `is_consistent` is true on the superset and false on the subset:
the prepended role P(i,c) becomes i's first P-successor and receives the existential
filler instead of b, which carries ¬A. Monotonicity fails in both claimed directions
(the subsumption A ⊑ B is reported for the subset but not the superset). -/
theorem C7_monotonicity_fails :
    (∀ a ∈ ontMono.axioms, a ∈ ontMonoExt.axioms) ∧
    isConsistent 10 ontMonoExt = true ∧
    isConsistent 10 ontMono = false ∧
    isSubsumedBy 10 ontMono (mkCl "u:A") (mkCl "u:B") = true ∧
    isSubsumedBy 10 ontMonoExt (mkCl "u:A") (mkCl "u:B") = false := by
  refine ⟨by decide, by decide, by decide, by decide, by decide⟩

theorem nodesLe_refl (ns : List Node) : NodesLe ns ns :=
  fun _ n h => ⟨n, h, List.prefix_refl n.concepts⟩

theorem nodesLe_trans {a b c : List Node} (h1 : NodesLe a b) (h2 : NodesLe b c) :
    NodesLe a c := by
  intro k n h
  obtain ⟨n', h', hp⟩ := h1 k n h
  obtain ⟨n'', h'', hp'⟩ := h2 k n' h'
  exact ⟨n'', h'', hp.trans hp'⟩

theorem nodesLe_append (ns extra : List Node) : NodesLe ns (ns ++ extra) := by
  intro k n h
  obtain ⟨hk, _⟩ := List.get?_eq_some.mp h
  exact ⟨n, by rw [List.get?_append hk]; exact h, List.prefix_refl n.concepts⟩

theorem nodesLe_modify (ns : List Node) (k : Nat) (f : Node → Node)
    (hf : ∀ n, n.concepts <+: (f n).concepts) : NodesLe ns (modifyNode ns k f) := by
  induction ns generalizing k with
  | nil => intro j n h; simp at h
  | cons m ms ih =>
      cases k with
      | zero =>
          intro j n h
          cases j with
          | zero =>
              refine ⟨f m, by simp [modifyNode], ?_⟩
              simp only [List.get?] at h
              cases h
              exact hf m
          | succ j => exact ⟨n, by simpa [modifyNode] using h, List.prefix_refl n.concepts⟩
      | succ k =>
          intro j n h
          cases j with
          | zero =>
              refine ⟨m, by simp [modifyNode], ?_⟩
              simp only [List.get?] at h
              cases h
              exact List.prefix_refl m.concepts
          | succ j =>
              obtain ⟨n', h', hp⟩ := ih k j n (by simpa using h)
              exact ⟨n', by simpa [modifyNode] using h', hp⟩

theorem nodesLe_addConceptNodes (ns : List Node) (i : Individual) (c : ClassExpression) :
    NodesLe ns (addConceptNodes ns i c).1 := by
  induction ns with
  | nil => intro j n h; simp at h
  | cons m ms ih =>
      by_cases hi : m.individual = i
      · by_cases hc : containsCE m.concepts c = true
        · simpa [addConceptNodes, hi, hc] using nodesLe_refl (m :: ms)
        · intro j n h
          cases j with
          | zero =>
              simp only [List.get?] at h
              cases h
              exact ⟨{ m with concepts := m.concepts ++ [c] },
                by simp [addConceptNodes, hi, hc], List.prefix_append _ _⟩
          | succ j =>
              exact ⟨n, by simpa [addConceptNodes, hi, hc] using h, List.prefix_refl n.concepts⟩
      · intro j n h
        cases j with
        | zero =>
            simp only [List.get?] at h
            cases h
            exact ⟨m, by simp [addConceptNodes, hi], List.prefix_refl m.concepts⟩
        | succ j =>
            obtain ⟨n', h', hp⟩ := ih j n (by simpa using h)
            exact ⟨n', by simpa [addConceptNodes, hi] using h', hp⟩

theorem nodesLe_foldl {β : Type} (step : CompletionGraph × Bool → β → CompletionGraph × Bool)
    (hstep : ∀ a x, NodesLe a.1.nodes (step a x).1.nodes) :
    ∀ (l : List β) (init : CompletionGraph × Bool),
      NodesLe init.1.nodes ((l.foldl step init).1.nodes) := by
  intro l
  induction l with
  | nil => intro init; exact nodesLe_refl _
  | cons x xs ih => intro init; exact nodesLe_trans (hstep init x) (ih (step init x))

theorem nodesLe_conjStep (a : CompletionGraph × Bool) (ind : Individual)
    (c : ClassExpression) : NodesLe a.1.nodes (conjStep a ind c).1.nodes := by
  unfold conjStep
  split
  · exact nodesLe_foldl _ (fun a x => nodesLe_addConceptNodes a.1.nodes ind x) _ a
  · exact nodesLe_refl _

theorem nodesLe_disjStep (a : CompletionGraph × Bool) (ind : Individual)
    (c : ClassExpression) : NodesLe a.1.nodes (disjStep a ind c).1.nodes := by
  unfold disjStep
  split
  · split
    · exact nodesLe_refl _
    · exact nodesLe_addConceptNodes a.1.nodes ind _
  · exact nodesLe_refl _

theorem nodesLe_existStep (a : CompletionGraph × Bool) (ind : Individual)
    (c : ClassExpression) : NodesLe a.1.nodes (existStep a ind c).1.nodes := by
  unfold existStep
  split
  · dsimp only
    split
    · exact nodesLe_refl _
    · split
      · exact nodesLe_refl _
      · split
        · split
          · exact nodesLe_refl _
          · split
            · exact nodesLe_refl _
            · split
              · exact nodesLe_refl _
              · exact nodesLe_modify _ _ _ (fun n => List.prefix_append _ _)
        · exact nodesLe_trans
            (nodesLe_modify _ _ (fun n => { n with roles := n.roles ++ [_] })
              (fun n => List.prefix_refl n.concepts))
            (nodesLe_append _ _)
  · exact nodesLe_refl _

theorem nodesLe_univStep (a : CompletionGraph × Bool) (ind : Individual)
    (c : ClassExpression) : NodesLe a.1.nodes (univStep a ind c).1.nodes := by
  unfold univStep
  split
  · dsimp only
    split
    · exact nodesLe_refl _
    · split
      · exact nodesLe_refl _
      · refine nodesLe_foldl _ (fun a3 t => ?_) _ a
        split
        · exact nodesLe_refl _
        · split
          · exact nodesLe_refl _
          · split
            · exact nodesLe_refl _
            · exact nodesLe_modify _ _ _ (fun n => List.prefix_append _ _)
  · exact nodesLe_refl _

theorem nodesLe_conjPass (g : CompletionGraph) :
    NodesLe g.nodes (applyConjunctionPass g).1.nodes := by
  unfold applyConjunctionPass
  exact nodesLe_foldl _
    (fun a (node : Node) =>
      nodesLe_foldl _ (fun a2 c => nodesLe_conjStep a2 node.individual c) _ a)
    _ (g, false)

theorem nodesLe_conjRule (fuel : Nat) (g : CompletionGraph) :
    NodesLe g.nodes (applyConjunctionRule fuel g).1.nodes := by
  induction fuel generalizing g with
  | zero => exact nodesLe_refl _
  | succ fuel ih =>
      unfold applyConjunctionRule
      dsimp only
      split
      · exact nodesLe_trans (nodesLe_conjPass g) (ih _)
      · exact nodesLe_conjPass g

theorem nodesLe_disjRule (g : CompletionGraph) :
    NodesLe g.nodes (applyDisjunctionRule g).1.nodes := by
  unfold applyDisjunctionRule
  exact nodesLe_foldl _
    (fun a (node : Node) =>
      nodesLe_foldl _ (fun a2 c => nodesLe_disjStep a2 node.individual c) _ a)
    _ (g, false)

theorem nodesLe_existRule (g : CompletionGraph) :
    NodesLe g.nodes (applyExistentialRule g).1.nodes := by
  unfold applyExistentialRule
  exact nodesLe_foldl _
    (fun a (node : Node) =>
      nodesLe_foldl _ (fun a2 c => nodesLe_existStep a2 node.individual c) _ a)
    _ (g, false)

theorem nodesLe_univRule (g : CompletionGraph) :
    NodesLe g.nodes (applyUniversalRule g).1.nodes := by
  unfold applyUniversalRule
  exact nodesLe_foldl _
    (fun a (node : Node) =>
      nodesLe_foldl _ (fun a2 c => nodesLe_univStep a2 node.individual c) _ a)
    _ (g, false)

theorem nodesLe_expandStep (fuel : Nat) (g : CompletionGraph) :
    NodesLe g.nodes (expandStep fuel g).1.nodes := by
  unfold expandStep
  exact nodesLe_trans (nodesLe_conjRule fuel g)
    (nodesLe_trans (nodesLe_disjRule _)
      (nodesLe_trans (nodesLe_existRule _) (nodesLe_univRule _)))

theorem nodesLe_expandLoop (fuel : Nat) (g : CompletionGraph) :
    NodesLe g.nodes (expandLoop fuel g).nodes := by
  induction fuel generalizing g with
  | zero => exact nodesLe_refl _
  | succ fuel ih =>
      unfold expandLoop
      dsimp only
      split
      · exact nodesLe_trans (nodesLe_expandStep (fuel + 1) g) (ih _)
      · exact nodesLe_expandStep (fuel + 1) g

theorem hasClash_mono {g g' : CompletionGraph} (h : NodesLe g.nodes g'.nodes)
    (hc : hasClash g = true) : hasClash g' = true := by
  unfold hasClash at hc ⊢
  rw [List.any_eq_true] at hc
  obtain ⟨node, hmem, hnode⟩ := hc
  rw [List.any_eq_true] at hnode
  obtain ⟨c, hcmem, hcc⟩ := hnode
  cases c with
  | objectComplementOf e =>
      obtain ⟨k, hk⟩ := List.get?_of_mem hmem
      obtain ⟨n', hk', hp⟩ := h k node hk
      rw [List.any_eq_true]
      refine ⟨n', List.get?_mem hk', ?_⟩
      rw [List.any_eq_true]
      refine ⟨.objectComplementOf e, hp.subset hcmem, ?_⟩
      simp only [containsCE_iff] at hcc ⊢
      exact hp.subset hcc
  | class_ c => simp at hcc
  | objectIntersectionOf l => simp at hcc
  | objectUnionOf l => simp at hcc
  | objectOneOf l => simp at hcc
  | objectSomeValuesFrom p f => simp at hcc
  | objectAllValuesFrom p f => simp at hcc
  | objectHasValue p v => simp at hcc
  | objectHasSelf p => simp at hcc
  | objectMinCardinality n p f => simp at hcc
  | objectMaxCardinality n p f => simp at hcc
  | objectExactCardinality n p f => simp at hcc

/-- C4 amended: when the ontology is inconsistent, `is_instance_of` short-circuits on
the consistency check and returns false (not true) for every individual and class,
while `is_subsumed_by` — which performs no such short-circuit — returns true for every
pair of classes on the concrete inconsistent ontology A(i), (¬A)(i), because the
initial clash at i survives saturation of the seeded test graph. -/
theorem C4_inconsistent_instance_false_subsumed_true :
    (∀ (fuel : Nat) (o : Ontology) (ind : Individual) (c : Class),
      isConsistent fuel o = false → isInstanceOf fuel o ind c = false) ∧
    (∀ c d : Class, isSubsumedBy 10 ontClash c d = true) := by
  constructor
  · intro fuel o ind c h
    unfold isConsistent isConsistentFrom at h
    simp only [Bool.not_eq_false'] at h
    unfold isInstanceOf
    simp only [h, if_true]
  · intro c d
    unfold isSubsumedBy isConsistentFrom
    simp only [Bool.not_not]
    exact hasClash_mono (nodesLe_expandLoop 10 _) rfl

/-- C4 witness: the amended theorem applied to the concrete inconsistent ontology. -/
theorem C4_witness :
    isConsistent 10 ontClash = false ∧
    isInstanceOf 10 ontClash (mkI "u:i") (mkCl "u:A") = false ∧
    isSubsumedBy 10 ontClash (mkCl "u:X") (mkCl "u:Y") = true :=
  ⟨by decide,
   C4_inconsistent_instance_false_subsumed_true.1 10 ontClash (mkI "u:i") (mkCl "u:A")
     (by decide),
   C4_inconsistent_instance_false_subsumed_true.2 (mkCl "u:X") (mkCl "u:Y")⟩

/-- C4 counterexample: on the inconsistent ontology A(i), (¬A)(i), `is_instance_of`
returns false — not true for every individual and class as claimed. -/
theorem C4_instance_of_not_true :
    isConsistent 10 ontClash = false ∧
    isInstanceOf 10 ontClash (mkI "u:i") (mkCl "u:A") = false := by
  refine ⟨by decide, by decide⟩

theorem digitsAux_undigits : ∀ fuel n, n ≤ fuel → undigits (digitsAux fuel n) = n := by
  intro fuel
  induction fuel with
  | zero =>
      intro n hn
      interval_cases n
      rfl
  | succ fuel ih =>
      intro n hn
      cases n with
      | zero => rfl
      | succ m =>
          have hdiv : (m + 1) / 10 ≤ fuel := by
            have h1 : (m + 1) / 10 < m + 1 := Nat.div_lt_self (Nat.succ_pos m) (by norm_num)
            omega
          simp only [digitsAux, undigits, ih _ hdiv]
          exact Nat.mod_add_div (m + 1) 10

theorem digitsAux_lt10 : ∀ fuel n d, d ∈ digitsAux fuel n → d < 10 := by
  intro fuel
  induction fuel with
  | zero => intro n d h; simp [digitsAux] at h
  | succ fuel ih =>
      intro n d h
      cases n with
      | zero => simp [digitsAux] at h
      | succ m =>
          simp only [digitsAux, List.mem_cons] at h
          rcases h with h | h
          · subst h; exact Nat.mod_lt _ (by norm_num)
          · exact ih _ d h

theorem digitChar_inj10 : ∀ d1, d1 < 10 → ∀ d2, d2 < 10 →
    Nat.digitChar d1 = Nat.digitChar d2 → d1 = d2 := by
  decide

theorem map_digitChar_inj : ∀ l1 l2 : List Nat, (∀ d ∈ l1, d < 10) → (∀ d ∈ l2, d < 10) →
    l1.map Nat.digitChar = l2.map Nat.digitChar → l1 = l2 := by
  intro l1
  induction l1 with
  | nil => intro l2 _ _ h; cases l2 <;> simp_all
  | cons d ds ih =>
      intro l2 h1 h2 h
      cases l2 with
      | nil => simp at h
      | cons e es =>
          simp only [List.map_cons, List.cons.injEq] at h
          have hd : d = e :=
            digitChar_inj10 d (h1 d (by simp)) e (h2 e (by simp)) h.1
          have hds : ds = es :=
            ih es (fun x hx => h1 x (by simp [hx])) (fun x hx => h2 x (by simp [hx])) h.2
          rw [hd, hds]

theorem natRepr_succ_inj (a b : Nat) (h : natRepr (a + 1) = natRepr (b + 1)) : a = b := by
  unfold natRepr at h
  simp only [Nat.succ_ne_zero, if_false] at h
  have hdata : ((digitsAux (a + 1) (a + 1)).reverse.map Nat.digitChar) =
      ((digitsAux (b + 1) (b + 1)).reverse.map Nat.digitChar) := by
    have := congrArg String.data h
    simpa using this
  have hrev : (digitsAux (a + 1) (a + 1)).reverse = (digitsAux (b + 1) (b + 1)).reverse :=
    map_digitChar_inj _ _
      (fun d hd => digitsAux_lt10 _ _ d (List.mem_reverse.mp hd))
      (fun d hd => digitsAux_lt10 _ _ d (List.mem_reverse.mp hd)) hdata
  have hdig : digitsAux (a + 1) (a + 1) = digitsAux (b + 1) (b + 1) :=
    List.reverse_injective hrev
  have ha := digitsAux_undigits (a + 1) (a + 1) (Nat.le_refl _)
  have hb := digitsAux_undigits (b + 1) (b + 1) (Nat.le_refl _)
  rw [hdig] at ha
  omega

theorem freshInd_inj {a b : Nat} (ha : 0 < a) (hb : 0 < b) (h : freshInd a = freshInd b) :
    a = b := by
  cases a with
  | zero => omega
  | succ a' =>
      cases b with
      | zero => omega
      | succ b' =>
          simp only [freshInd, Individual.anonymous.injEq, NodeID.mk.injEq] at h
          have hdata := congrArg String.data h
          simp only [String.data_append] at hdata
          have hr : natRepr (a' + 1) = natRepr (b' + 1) :=
            String.ext (List.append_cancel_left hdata)
          rw [natRepr_succ_inj a' b' hr]

theorem hasNodeFor_iff (g : CompletionGraph) (x : Individual) :
    hasNodeFor g x = true ↔ x ∈ g.nodes.map (·.individual) := by
  simp [hasNodeFor, List.any_eq_true, List.mem_map]

theorem nodupInd_iff (ns : List Node) :
    nodupInd ns = true ↔ (ns.map (·.individual)).Nodup := by
  induction ns with
  | nil => simp [nodupInd]
  | cons n ms ih =>
      simp [nodupInd, List.nodup_cons, ih, List.mem_map, List.any_eq_true]

theorem nodupCE_iff (l : List ClassExpression) : nodupCE l = true ↔ l.Nodup := by
  induction l with
  | nil => simp [nodupCE]
  | cons c cs ih =>
      simp only [nodupCE, Bool.and_eq_true, Bool.not_eq_true', ih, List.nodup_cons]
      rw [← containsCE_iff]
      simp

theorem nodupRoles_iff (l : List (ObjectPropertyExpression × Individual)) :
    nodupRoles l = true ↔ l.Nodup := by
  induction l with
  | nil => simp [nodupRoles]
  | cons r rs ih =>
      simp only [nodupRoles, Bool.and_eq_true, Bool.not_eq_true', ih, List.nodup_cons]
      rw [← containsRole_iff]
      simp

theorem graphInv_iff (g : CompletionGraph) :
    graphInv g = true ↔
      ((g.nodes.map (·.individual)).Nodup ∧
        ∀ n ∈ g.nodes, n.concepts.Nodup ∧ n.roles.Nodup) := by
  simp [graphInv, nodupInd_iff, List.all_eq_true, nodupCE_iff, nodupRoles_iff]

theorem nodup_push {α : Type} (l : List α) (a : α) (h : l.Nodup) (ha : a ∉ l) :
    (l ++ [a]).Nodup := by
  simp [List.nodup_append, h, ha]

theorem addConceptNodes_inds (ns : List Node) (i : Individual) (c : ClassExpression) :
    (addConceptNodes ns i c).1.map (·.individual) =
      if i ∈ ns.map (·.individual) then ns.map (·.individual)
      else ns.map (·.individual) ++ [i] := by
  induction ns with
  | nil => simp [addConceptNodes]
  | cons n ms ih =>
      by_cases hi : n.individual = i
      · by_cases hc : containsCE n.concepts c = true
        · simp [addConceptNodes, hi, hc]
        · simp [addConceptNodes, hi, hc]
      · by_cases him : i ∈ ms.map (·.individual)
        · simp [addConceptNodes, hi, him, ih, Ne.symm hi]
        · simp [addConceptNodes, hi, him, ih, Ne.symm hi]

theorem addConceptNodes_mem (ns : List Node) (i : Individual) (c : ClassExpression) :
    ∀ m ∈ (addConceptNodes ns i c).1,
      m ∈ ns ∨
      (∃ n ∈ ns, containsCE n.concepts c = false ∧
        m = { n with concepts := n.concepts ++ [c] }) ∨
      m = ⟨i, [c], []⟩ := by
  induction ns with
  | nil => intro m hm; simp [addConceptNodes] at hm; exact Or.inr (Or.inr hm)
  | cons n ms ih =>
      intro m hm
      by_cases hi : n.individual = i
      · by_cases hc : containsCE n.concepts c = true
        · have hnodes : (addConceptNodes (n :: ms) i c).1 = n :: ms := by
            simp [addConceptNodes, hi, hc]
          rw [hnodes] at hm
          exact Or.inl hm
        · have hnodes : (addConceptNodes (n :: ms) i c).1 =
              { n with concepts := n.concepts ++ [c] } :: ms := by
            simp [addConceptNodes, hi, hc]
          rw [hnodes] at hm
          rcases List.mem_cons.mp hm with hm | hm
          · exact Or.inr (Or.inl ⟨n, List.mem_cons_self n ms, by simpa using hc, hm⟩)
          · exact Or.inl (List.mem_cons_of_mem n hm)
      · have hnodes : (addConceptNodes (n :: ms) i c).1 =
            n :: (addConceptNodes ms i c).1 := by
          simp [addConceptNodes, hi]
        rw [hnodes] at hm
        rcases List.mem_cons.mp hm with hm | hm
        · exact Or.inl (by simp [hm])
        · rcases ih m hm with h | ⟨n', hn', hcn', hm'⟩ | h
          · exact Or.inl (List.mem_cons_of_mem n h)
          · exact Or.inr (Or.inl ⟨n', List.mem_cons_of_mem n hn', hcn', hm'⟩)
          · exact Or.inr (Or.inr h)

theorem addConceptNodes_nodup_inner (ns : List Node) (i : Individual) (c : ClassExpression)
    (h : ∀ n ∈ ns, n.concepts.Nodup ∧ n.roles.Nodup) :
    ∀ m ∈ (addConceptNodes ns i c).1, m.concepts.Nodup ∧ m.roles.Nodup := by
  intro m hm
  rcases addConceptNodes_mem ns i c m hm with hmem | ⟨n, hn, hcn, rfl⟩ | rfl
  · exact h m hmem
  · refine ⟨nodup_push _ _ (h n hn).1 ?_, (h n hn).2⟩
    intro hc
    rw [← containsCE_iff] at hc
    simp [hc] at hcn
  · exact ⟨List.nodup_singleton c, List.nodup_nil⟩

theorem graphInv_addConceptF (g : CompletionGraph) (i : Individual) (c : ClassExpression)
    (h : graphInv g = true) : graphInv (addConceptF g i c).1 = true := by
  rw [graphInv_iff] at h ⊢
  obtain ⟨h1, h2⟩ := h
  constructor
  · show ((addConceptNodes g.nodes i c).1.map (·.individual)).Nodup
    rw [addConceptNodes_inds]
    split
    · exact h1
    · next him => exact nodup_push _ _ h1 him
  · exact addConceptNodes_nodup_inner g.nodes i c h2

theorem addConceptF_next (g : CompletionGraph) (i : Individual) (c : ClassExpression) :
    (addConceptF g i c).1.next_fresh_id = g.next_fresh_id := rfl

theorem freshOK_of_inds (g g' : CompletionGraph)
    (hind : ∀ x, x ∈ g'.nodes.map (·.individual) → x ∈ g.nodes.map (·.individual))
    (hnext : g.next_fresh_id ≤ g'.next_fresh_id) (hf : freshOK g) : freshOK g' := by
  intro k hk
  by_contra hne
  have : hasNodeFor g' (freshInd k) = true := by
    cases hh : hasNodeFor g' (freshInd k)
    · exact absurd hh hne
    · rfl
  rw [hasNodeFor_iff] at this
  have := hind _ this
  rw [← hasNodeFor_iff] at this
  rw [hf k (Nat.lt_of_le_of_lt hnext hk)] at this
  cases this

theorem freshOK_addConceptF (g : CompletionGraph) (i : Individual) (c : ClassExpression)
    (hi : i ∈ g.nodes.map (·.individual)) (hf : freshOK g) : freshOK (addConceptF g i c).1 := by
  refine freshOK_of_inds g _ (fun x hx => ?_) (Nat.le_refl _) hf
  have : (addConceptF g i c).1.nodes.map (·.individual) = g.nodes.map (·.individual) := by
    show (addConceptNodes g.nodes i c).1.map (·.individual) = _
    rw [addConceptNodes_inds, if_pos hi]
  rwa [this] at hx

theorem getOrCreateNodes_inds (ns : List Node) (i : Individual) :
    (getOrCreateNodes ns i).map (·.individual) =
      if i ∈ ns.map (·.individual) then ns.map (·.individual)
      else ns.map (·.individual) ++ [i] := by
  induction ns with
  | nil => simp [getOrCreateNodes]
  | cons n ms ih =>
      by_cases hi : n.individual = i
      · simp [getOrCreateNodes, hi]
      · by_cases him : i ∈ ms.map (·.individual)
        · simp [getOrCreateNodes, hi, him, ih, Ne.symm hi]
        · simp [getOrCreateNodes, hi, him, ih, Ne.symm hi]

theorem getOrCreateNodes_mem (ns : List Node) (i : Individual) :
    ∀ m ∈ getOrCreateNodes ns i, m ∈ ns ∨ m = ⟨i, [], []⟩ := by
  induction ns with
  | nil => intro m hm; simp [getOrCreateNodes] at hm; exact Or.inr hm
  | cons n ms ih =>
      intro m hm
      by_cases hi : n.individual = i
      · simp only [getOrCreateNodes, if_pos hi] at hm
        exact Or.inl hm
      · simp only [getOrCreateNodes, if_neg hi, List.mem_cons] at hm
        rcases hm with hm | hm
        · exact Or.inl (by simp [hm])
        · rcases ih m hm with h | h
          · exact Or.inl (by simp [h])
          · exact Or.inr h

theorem graphInv_getOrCreateNode (g : CompletionGraph) (i : Individual)
    (h : graphInv g = true) : graphInv (getOrCreateNode g i) = true := by
  rw [graphInv_iff] at h ⊢
  obtain ⟨h1, h2⟩ := h
  constructor
  · show ((getOrCreateNodes g.nodes i).map (·.individual)).Nodup
    rw [getOrCreateNodes_inds]
    split
    · exact h1
    · next him => exact nodup_push _ _ h1 him
  · intro m hm
    rcases getOrCreateNodes_mem g.nodes i m hm with hmem | rfl
    · exact h2 m hmem
    · exact ⟨List.nodup_nil, List.nodup_nil⟩

theorem addRoleNodes_mapInds (ns : List Node) (s : Individual) (P : ObjectPropertyExpression)
    (t : Individual) :
    (addRoleNodes ns s P t).map (·.individual) =
      if s ∈ ns.map (·.individual) then ns.map (·.individual)
      else ns.map (·.individual) ++ [s] := by
  induction ns with
  | nil => simp [addRoleNodes]
  | cons n ms ih =>
      by_cases hi : n.individual = s
      · by_cases hc : containsRole n.roles (P, t) = true
        · simp [addRoleNodes, hi, hc]
        · simp [addRoleNodes, hi, hc]
      · by_cases him : s ∈ ms.map (·.individual)
        · simp [addRoleNodes, hi, him, ih, Ne.symm hi]
        · simp [addRoleNodes, hi, him, ih, Ne.symm hi]

theorem addRoleNodes_mem (ns : List Node) (s : Individual) (P : ObjectPropertyExpression)
    (t : Individual) :
    ∀ m ∈ addRoleNodes ns s P t,
      m ∈ ns ∨
      (∃ n ∈ ns, containsRole n.roles (P, t) = false ∧
        m = { n with roles := n.roles ++ [(P, t)] }) ∨
      m = ⟨s, [], [(P, t)]⟩ := by
  induction ns with
  | nil => intro m hm; simp [addRoleNodes] at hm; exact Or.inr (Or.inr hm)
  | cons n ms ih =>
      intro m hm
      by_cases hi : n.individual = s
      · by_cases hc : containsRole n.roles (P, t) = true
        · have hnodes : addRoleNodes (n :: ms) s P t = n :: ms := by
            simp [addRoleNodes, hi, hc]
          rw [hnodes] at hm
          exact Or.inl hm
        · have hnodes : addRoleNodes (n :: ms) s P t =
              { n with roles := n.roles ++ [(P, t)] } :: ms := by
            simp [addRoleNodes, hi, hc]
          rw [hnodes] at hm
          rcases List.mem_cons.mp hm with hm | hm
          · exact Or.inr (Or.inl ⟨n, List.mem_cons_self n ms, by simpa using hc, hm⟩)
          · exact Or.inl (List.mem_cons_of_mem n hm)
      · have hnodes : addRoleNodes (n :: ms) s P t = n :: addRoleNodes ms s P t := by
          simp [addRoleNodes, hi]
        rw [hnodes] at hm
        rcases List.mem_cons.mp hm with hm | hm
        · exact Or.inl (by simp [hm])
        · rcases ih m hm with h | ⟨n', hn', hcn', hm'⟩ | h
          · exact Or.inl (List.mem_cons_of_mem n h)
          · exact Or.inr (Or.inl ⟨n', List.mem_cons_of_mem n hn', hcn', hm'⟩)
          · exact Or.inr (Or.inr h)

theorem graphInv_addRole (g : CompletionGraph) (s : Individual)
    (P : ObjectPropertyExpression) (t : Individual) (h : graphInv g = true) :
    graphInv (addRole g s P t) = true := by
  rw [graphInv_iff] at h ⊢
  obtain ⟨h1, h2⟩ := h
  constructor
  · show ((addRoleNodes g.nodes s P t).map (·.individual)).Nodup
    rw [addRoleNodes_mapInds]
    split
    · exact h1
    · next him => exact nodup_push _ _ h1 him
  · intro m hm
    rcases addRoleNodes_mem g.nodes s P t m hm with hmem | ⟨n, hn, hcn, rfl⟩ | rfl
    · exact h2 m hmem
    · refine ⟨(h2 n hn).1, nodup_push _ _ (h2 n hn).2 ?_⟩
      intro hc
      rw [← containsRole_iff] at hc
      simp [hc] at hcn
    · exact ⟨List.nodup_nil, List.nodup_singleton _⟩

theorem findFirstRole_none (rs : List (ObjectPropertyExpression × Individual))
    (P : ObjectPropertyExpression) (h : findFirstRole rs P = none) :
    ∀ t, (P, t) ∉ rs := by
  induction rs with
  | nil => simp
  | cons r rest ih =>
      intro t
      by_cases hp : r.1 = P
      · simp [findFirstRole, hp] at h
      · simp only [findFirstRole, if_neg hp] at h
        simp only [List.mem_cons, not_or]
        exact ⟨fun he => hp (by rw [← he]), ih h t⟩

theorem modifyNode_map_inds (ns : List Node) (k : Nat) (f : Node → Node)
    (hf : ∀ n, (f n).individual = n.individual) :
    (modifyNode ns k f).map (·.individual) = ns.map (·.individual) := by
  induction ns generalizing k with
  | nil => rfl
  | cons n ms ih =>
      cases k with
      | zero => simp [modifyNode, hf n]
      | succ k => simp [modifyNode, ih k]

theorem modifyNode_mem (ns : List Node) (k : Nat) (f : Node → Node) :
    ∀ m ∈ modifyNode ns k f, m ∈ ns ∨ ∃ n, ns.get? k = some n ∧ m = f n := by
  induction ns generalizing k with
  | nil => intro m hm; simp [modifyNode] at hm
  | cons n ms ih =>
      cases k with
      | zero =>
          intro m hm
          simp only [modifyNode, List.mem_cons] at hm
          rcases hm with hm | hm
          · exact Or.inr ⟨n, rfl, hm⟩
          · exact Or.inl (by simp [hm])
      | succ k =>
          intro m hm
          simp only [modifyNode, List.mem_cons] at hm
          rcases hm with hm | hm
          · exact Or.inl (by simp [hm])
          · rcases ih k m hm with h | ⟨n', hn', hm'⟩
            · exact Or.inl (by simp [h])
            · exact Or.inr ⟨n', by simpa using hn', hm'⟩

theorem hasNodeFor_false_iff (g : CompletionGraph) (x : Individual) :
    hasNodeFor g x = false ↔ x ∉ g.nodes.map (·.individual) := by
  rw [← hasNodeFor_iff]
  cases hasNodeFor g x <;> simp

theorem pushConcept_inv (g : CompletionGraph) (ti : Nat) (tnode : Node)
    (filler : ClassExpression) (hget : g.nodes.get? ti = some tnode)
    (hmiss : containsCE tnode.concepts filler = false) (h : graphInv g = true) :
    graphInv ⟨modifyNode g.nodes ti (fun n => { n with concepts := n.concepts ++ [filler] }),
      g.next_fresh_id⟩ = true := by
  rw [graphInv_iff] at h ⊢
  obtain ⟨h1, h2⟩ := h
  constructor
  · show ((modifyNode g.nodes ti
        (fun n => { n with concepts := n.concepts ++ [filler] })).map (·.individual)).Nodup
    rw [modifyNode_map_inds g.nodes ti
      (fun n => { n with concepts := n.concepts ++ [filler] }) (fun n => rfl)]
    exact h1
  · intro m hm
    rcases modifyNode_mem _ _ _ m hm with hmem | ⟨n, hn, rfl⟩
    · exact h2 m hmem
    · have hn' : n = tnode := by
        rw [hget] at hn
        exact (Option.some.inj hn).symm
      subst hn'
      have hmem := List.get?_mem hget
      refine ⟨nodup_push _ _ (h2 n hmem).1 ?_, (h2 n hmem).2⟩
      intro hcmem
      rw [← containsCE_iff] at hcmem
      rw [hcmem] at hmiss
      cases hmiss

theorem pushConcept_freshOK (g : CompletionGraph) (ti : Nat) (filler : ClassExpression)
    (hf : freshOK g) :
    freshOK ⟨modifyNode g.nodes ti (fun n => { n with concepts := n.concepts ++ [filler] }),
      g.next_fresh_id⟩ := by
  refine freshOK_of_inds g _ (fun x hx => ?_) (Nat.le_refl _) hf
  dsimp only at hx
  rwa [modifyNode_map_inds g.nodes ti
    (fun n => { n with concepts := n.concepts ++ [filler] }) (fun n => rfl)] at hx

theorem mint_inv (g : CompletionGraph) (k : Nat) (node : Node)
    (P : ObjectPropertyExpression) (filler : ClassExpression)
    (hget : g.nodes.get? k = some node) (hrole : findFirstRole node.roles P = none)
    (h : graphInv g = true) (hf : freshOK g) :
    graphInv ⟨modifyNode g.nodes k
        (fun n => { n with roles := n.roles ++ [(P, freshInd (g.next_fresh_id + 1))] }) ++
        [⟨freshInd (g.next_fresh_id + 1), [filler], []⟩], g.next_fresh_id + 1⟩ = true ∧
    freshOK ⟨modifyNode g.nodes k
        (fun n => { n with roles := n.roles ++ [(P, freshInd (g.next_fresh_id + 1))] }) ++
        [⟨freshInd (g.next_fresh_id + 1), [filler], []⟩], g.next_fresh_id + 1⟩ := by
  have hfresh : freshInd (g.next_fresh_id + 1) ∉ g.nodes.map (·.individual) :=
    (hasNodeFor_false_iff g _).mp (hf (g.next_fresh_id + 1) (Nat.lt_succ_self _))
  have hmap : (modifyNode g.nodes k
      (fun n => { n with roles := n.roles ++ [(P, freshInd (g.next_fresh_id + 1))] }) ++
      [(⟨freshInd (g.next_fresh_id + 1), [filler], []⟩ : Node)]).map (·.individual) =
      g.nodes.map (·.individual) ++ [freshInd (g.next_fresh_id + 1)] := by
    rw [List.map_append, modifyNode_map_inds g.nodes k
      (fun n => { n with roles := n.roles ++ [(P, freshInd (g.next_fresh_id + 1))] })
      (fun n => rfl)]
    rfl
  constructor
  · rw [graphInv_iff] at h ⊢
    obtain ⟨h1, h2⟩ := h
    constructor
    · show ((modifyNode g.nodes k _ ++ _).map (·.individual)).Nodup
      rw [hmap]
      exact nodup_push _ _ h1 hfresh
    · intro m hm
      rcases List.mem_append.mp hm with hm | hm
      · rcases modifyNode_mem _ _ _ m hm with hmem | ⟨n, hn, rfl⟩
        · exact h2 m hmem
        · have hn' : n = node := by
            rw [hget] at hn
            exact (Option.some.inj hn).symm
          subst hn'
          have hmem := List.get?_mem hget
          refine ⟨(h2 n hmem).1, nodup_push _ _ (h2 n hmem).2 ?_⟩
          exact findFirstRole_none n.roles P hrole _
      · rcases List.mem_singleton.mp hm with rfl
        exact ⟨List.nodup_singleton _, List.nodup_nil⟩
  · intro j hj
    dsimp only at hj
    rw [hasNodeFor_false_iff]
    dsimp only
    rw [hmap]
    intro hmem
    rcases List.mem_append.mp hmem with hmem | hmem
    · have := (hasNodeFor_false_iff g _).mp (hf j (by omega))
      exact this hmem
    · have heq := List.mem_singleton.mp hmem
      have := freshInd_inj (by omega) (Nat.succ_pos _) heq
      omega

theorem existStep_inv (a : CompletionGraph × Bool) (ind : Individual) (c : ClassExpression)
    (h : graphInv a.1 = true) (hf : freshOK a.1) :
    graphInv (existStep a ind c).1 = true ∧ freshOK (existStep a ind c).1 := by
  unfold existStep
  split
  · dsimp only
    split
    · exact ⟨h, hf⟩
    · next k hk =>
        split
        · exact ⟨h, hf⟩
        · next node hnode =>
            split
            · next target hrole =>
                split
                · exact ⟨h, hf⟩
                · next ti hti =>
                    split
                    · exact ⟨h, hf⟩
                    · next tnode htnode =>
                        split
                        · exact ⟨h, hf⟩
                        · next hcont =>
                            rw [List.get?_eq_getElem?] at htnode
                            exact ⟨pushConcept_inv a.1 ti tnode _ (by simpa using htnode)
                                (by simpa using hcont) h,
                              pushConcept_freshOK a.1 ti _ hf⟩
            · next hrole =>
                rw [List.get?_eq_getElem?] at hnode
                exact mint_inv a.1 k node _ _ (by simpa using hnode) hrole h hf
  · exact ⟨h, hf⟩

theorem univStep_inv (a : CompletionGraph × Bool) (ind : Individual) (c : ClassExpression)
    (h : graphInv a.1 = true) : graphInv (univStep a ind c).1 = true := by
  unfold univStep
  split
  · dsimp only
    split
    · exact h
    · next k hk =>
        split
        · exact h
        · next node hnode =>
            refine foldl_preserve (fun a3 => graphInv a3.1 = true) _ ?_ _ a h
            intro a3 target h3
            split
            · exact h3
            · next ti hti =>
                split
                · exact h3
                · next tnode htnode =>
                    split
                    · exact h3
                    · next hcont =>
                        rw [List.get?_eq_getElem?] at htnode
                        exact pushConcept_inv a3.1 ti tnode _ (by simpa using htnode)
                          (by simpa using hcont) h3
  · exact h

theorem conjStep_inv (a : CompletionGraph × Bool) (ind : Individual) (c : ClassExpression)
    (h : graphInv a.1 = true) : graphInv (conjStep a ind c).1 = true := by
  unfold conjStep
  split
  · refine foldl_preserve (fun a3 => graphInv a3.1 = true) _ ?_ _ a h
    intro a3 x h3
    exact graphInv_addConceptF a3.1 ind x h3
  · exact h

theorem disjStep_inv (a : CompletionGraph × Bool) (ind : Individual) (c : ClassExpression)
    (h : graphInv a.1 = true) : graphInv (disjStep a ind c).1 = true := by
  unfold disjStep
  split
  · split
    · exact h
    · exact graphInv_addConceptF a.1 ind _ h
  · exact h

theorem conjPass_inv (g : CompletionGraph) (h : graphInv g = true) :
    graphInv (applyConjunctionPass g).1 = true := by
  unfold applyConjunctionPass
  refine foldl_preserve (fun a => graphInv a.1 = true) _ ?_ _ (g, false) h
  intro a node ha
  refine foldl_preserve (fun a2 => graphInv a2.1 = true) _ ?_ _ a ha
  intro a2 c h2
  exact conjStep_inv a2 node.individual c h2

theorem conjRule_inv (fuel : Nat) (g : CompletionGraph) (h : graphInv g = true) :
    graphInv (applyConjunctionRule fuel g).1 = true := by
  induction fuel generalizing g with
  | zero => exact h
  | succ fuel ih =>
      unfold applyConjunctionRule
      dsimp only
      split
      · exact ih _ (conjPass_inv g h)
      · exact conjPass_inv g h

theorem disjRule_inv (g : CompletionGraph) (h : graphInv g = true) :
    graphInv (applyDisjunctionRule g).1 = true := by
  unfold applyDisjunctionRule
  refine foldl_preserve (fun a => graphInv a.1 = true) _ ?_ _ (g, false) h
  intro a node ha
  refine foldl_preserve (fun a2 => graphInv a2.1 = true) _ ?_ _ a ha
  intro a2 c h2
  exact disjStep_inv a2 node.individual c h2

theorem univRule_inv (g : CompletionGraph) (h : graphInv g = true) :
    graphInv (applyUniversalRule g).1 = true := by
  unfold applyUniversalRule
  refine foldl_preserve (fun a => graphInv a.1 = true) _ ?_ _ (g, false) h
  intro a node ha
  refine foldl_preserve (fun a2 => graphInv a2.1 = true) _ ?_ _ a ha
  intro a2 c h2
  exact univStep_inv a2 node.individual c h2

theorem existRule_inv (g : CompletionGraph) (h : graphInv g = true) (hf : freshOK g) :
    graphInv (applyExistentialRule g).1 = true ∧ freshOK (applyExistentialRule g).1 := by
  unfold applyExistentialRule
  refine foldl_preserve (fun a => graphInv a.1 = true ∧ freshOK a.1) _ ?_ _ (g, false) ⟨h, hf⟩
  intro a node ha
  refine foldl_preserve (fun a2 => graphInv a2.1 = true ∧ freshOK a2.1) _ ?_ _ a ha
  intro a2 c h2
  exact existStep_inv a2 node.individual c h2.1 h2.2

/-- C10 amended: `get_or_create_node`, `add_concept`, `add_role` and the conjunction,
disjunction and universal rules preserve the invariant (at most one node per
individual; deduplicated concept and role lists) unconditionally; the existential rule
preserves it provided additionally no individual of the shape `_:fresh{k}` with `k`
above the fresh counter already occurs in the graph — otherwise its minting can
duplicate an individual (see the counterexample). -/
theorem C10_invariant_preservation :
    (∀ (g : CompletionGraph) (i : Individual), graphInv g = true →
      graphInv (getOrCreateNode g i) = true) ∧
    (∀ (g : CompletionGraph) (i : Individual) (c : ClassExpression), graphInv g = true →
      graphInv (addConcept g i c) = true) ∧
    (∀ (g : CompletionGraph) (s : Individual) (P : ObjectPropertyExpression) (t : Individual),
      graphInv g = true → graphInv (addRole g s P t) = true) ∧
    (∀ (fuel : Nat) (g : CompletionGraph), graphInv g = true →
      graphInv (applyConjunctionRule fuel g).1 = true) ∧
    (∀ g : CompletionGraph, graphInv g = true → graphInv (applyDisjunctionRule g).1 = true) ∧
    (∀ g : CompletionGraph, graphInv g = true → graphInv (applyUniversalRule g).1 = true) ∧
    (∀ g : CompletionGraph, graphInv g = true → freshOK g →
      graphInv (applyExistentialRule g).1 = true ∧ freshOK (applyExistentialRule g).1) :=
  ⟨graphInv_getOrCreateNode,
   fun g i c h => graphInv_addConceptF g i c h,
   graphInv_addRole,
   conjRule_inv,
   disjRule_inv,
   univRule_inv,
   existRule_inv⟩

/-- C10 witness: the existential-rule preservation applied to a concrete graph whose
individuals are all named (so the freshness side condition holds trivially). -/
theorem C10_witness : graphInv (applyExistentialRule graphExistReuse).1 = true :=
  (C10_invariant_preservation.2.2.2.2.2.2 graphExistReuse (by decide) (fun k hk => rfl)).1

end Owl2
